import Mathlib

/-!
Verification development for `langtable.py` (vpodzime/langtable).

This file gives a shallow embedding, in Lean 4, of the resolution and
ranking engine of `langtable.py`, and proves/refutes a list of claims
about it.

Modelling conventions
=====================

* The source is Python 2 code (`print x` doctests, `map` returning a
  list, true integer `/` being floor division).  Consequently:
  - integer division is `Nat` floor division (`/` on positive Python 2
    ints),
  - `dict` iteration order is the CPython 2.7 hash-table slot order.
    For the module-level literal `_glibc_script_ids` this order is
    fixed and computable (64-bit CPython 2.7 string hashes, hash
    randomization off, table size 8):
    `devanagari (slot 0), iqtelif (slot 1), latin (slot 3),
     cyrillic (slot 7)` -- this is the order in which
    `_parse_and_split_languageId` applies the substring replacements.
* Python dictionaries in general are modelled as association lists
  whose list order represents the dict's iteration order; keys are
  unique (a Python dict cannot hold a key twice).  `dictGet?` is
  `d[k]`/`k in d`, `dictSet` is `d[k] = v` (updating an existing key
  keeps its position).
* Optional string parameters (default `None`) are `Option String`;
  Python truthiness of such a parameter (`if languageId:`) is
  `pyTruthy` (`None` and `""` are falsy).
* Machine integers: all ranks are non-negative integers (`Nat`), per
  the data model; weights can only grow by multiplication, and Python 2
  ints are arbitrary precision, so no overflow modelling is needed.
-/

/-! ## Characters and truthiness -/

def isLowerAZ (c : Char) : Bool := 97 ≤ c.toNat && c.toNat ≤ 122

def isUpperAZ (c : Char) : Bool := 65 ≤ c.toNat && c.toNat ≤ 90

def pyTruthy : Option String → Bool
  | none => false
  | some s => !s.data.isEmpty

/-! ## Python `str.replace` (replace every occurrence, left to right)

Structural recursion on a fuel argument (initialised with the string
length, which always suffices) so that the function reduces inside the
kernel; `replaceAll_cons` recovers the natural recursion equation.
All patterns in this file are non-empty. -/

def replaceAllGo (pat rep : List Char) : Nat → List Char → List Char
  | _, [] => []
  | 0, s => s
  | fuel + 1, c :: s =>
    if pat.isPrefixOf (c :: s) then
      rep ++ replaceAllGo pat rep fuel (s.drop (pat.length - 1))
    else
      c :: replaceAllGo pat rep fuel s

def replaceAll (pat rep s : List Char) : List Char :=
  replaceAllGo pat rep s.length s

theorem replaceAllGo_fuel (pat rep : List Char) :
    ∀ f₁ f₂ s, s.length ≤ f₁ → s.length ≤ f₂ →
      replaceAllGo pat rep f₁ s = replaceAllGo pat rep f₂ s := by
  intro f₁
  induction f₁ with
  | zero =>
    intro f₂ s h₁ _
    have : s = [] := List.eq_nil_of_length_eq_zero (Nat.le_zero.mp h₁)
    subst this
    cases f₂ <;> rfl
  | succ f ih =>
    intro f₂ s h₁ h₂
    cases s with
    | nil => cases f₂ <;> rfl
    | cons c t =>
      cases f₂ with
      | zero => simp at h₂
      | succ f' =>
        simp only [replaceAllGo]
        by_cases hp : pat.isPrefixOf (c :: t)
        · simp only [hp, if_pos]
          have hd : (t.drop (pat.length - 1)).length ≤ t.length := by
            simp [List.length_drop]
          simp only [List.length_cons] at h₁ h₂
          exact congrArg (rep ++ ·) (ih f' _ (le_trans hd (by omega)) (le_trans hd (by omega)))
        · simp only [hp, if_neg, not_false_iff]
          simp only [List.length_cons] at h₁ h₂
          exact congrArg (c :: ·) (ih f' t (by omega) (by omega))

@[simp] theorem replaceAll_nil (pat rep : List Char) : replaceAll pat rep [] = [] := rfl

theorem replaceAll_cons (pat rep : List Char) (c : Char) (s : List Char) :
    replaceAll pat rep (c :: s) =
      if pat.isPrefixOf (c :: s) then
        rep ++ replaceAll pat rep (s.drop (pat.length - 1))
      else
        c :: replaceAll pat rep s := by
  show replaceAllGo pat rep (s.length + 1) (c :: s) = _
  simp only [replaceAllGo]
  by_cases hp : pat.isPrefixOf (c :: s)
  · simp only [hp, if_pos]
    exact congrArg (rep ++ ·)
      (replaceAllGo_fuel pat rep _ _ _ (by simp [List.length_drop]) le_rfl)
  · simp only [hp]
    rfl

/-- `containsSub pat s` : `pat` occurs in `s` as a contiguous substring
(Python's `pat in s`). -/
def containsSub (pat : List Char) : List Char → Bool
  | [] => pat.isEmpty
  | c :: s => pat.isPrefixOf (c :: s) || containsSub pat s

/-! ## The glibc script-name substitutions

`_glibc_script_ids` maps glibc script names to ISO-15924 ids.  The
loop `for key in _glibc_script_ids:` visits the keys in CPython 2.7
dict iteration order: devanagari, iqtelif, latin, cyrillic. -/

def devanagariKey : List Char := 'd' :: 'e' :: 'v' :: 'a' :: 'n' :: 'a' :: 'g' :: 'a' :: 'r' :: 'i' :: []
def devaRep : List Char := 'D' :: 'e' :: 'v' :: 'a' :: []
def iqtelifKey : List Char := 'i' :: 'q' :: 't' :: 'e' :: 'l' :: 'i' :: 'f' :: []
def latinKey : List Char := 'l' :: 'a' :: 't' :: 'i' :: 'n' :: []
def latnRep : List Char := 'L' :: 'a' :: 't' :: 'n' :: []
def cyrillicKey : List Char := 'c' :: 'y' :: 'r' :: 'i' :: 'l' :: 'l' :: 'i' :: 'c' :: []
def cyrlRep : List Char := 'C' :: 'y' :: 'r' :: 'l' :: []

def glibcSubsList (s : List Char) : List Char :=
  replaceAll cyrillicKey cyrlRep
    (replaceAll latinKey latnRep
      (replaceAll iqtelifKey latnRep
        (replaceAll devanagariKey devaRep s)))

def glibcSubs (s : String) : String := String.mk (glibcSubsList s.data)

/-! ## The CLDR locale pattern

A deterministic rendering of `_cldr_locale_pattern` and `re.match`:

```
^(?P<language>[a-z]{2,3}
  (?=$|@|_[A-Z][a-z]{3}(?=$|@|_[A-Z]{2}(?=$|@))|_[A-Z]{2}(?=$|@)))
(?:_(?P<script>[A-Z][a-z]{3})(?=$|@|_[A-Z]{2}(?=$|@))){0,1}
(?:_(?P<territory>[A-Z]{2})(?=$|@)){0,1}
```

`re.match` anchors at the start only; the pattern may match a proper
prefix (anything from an `@` on is left unconsumed).  `[a-z]{2,3}` is
greedy: three letters are tried before two. -/

/-- lookahead `(?=$|@)` -/
def endOrAt : List Char → Bool
  | [] => true
  | c :: _ => c = '@'

/-- lookahead `(?=$|@|_[A-Z]{2}(?=$|@))` (valid after a script) -/
def afterScriptOk : List Char → Bool
  | '_' :: c :: d :: rest => isUpperAZ c && isUpperAZ d && endOrAt rest
  | rest => endOrAt rest

/-- the language lookahead
`(?=$|@|_[A-Z][a-z]{3}(?=$|@|_[A-Z]{2}(?=$|@))|_[A-Z]{2}(?=$|@))` -/
def langLookaheadOk (r : List Char) : Bool :=
  endOrAt r ||
  (match r with
   | '_' :: c :: d :: e :: f :: rest =>
     isUpperAZ c && isLowerAZ d && isLowerAZ e && isLowerAZ f && afterScriptOk rest
   | _ => false) ||
  (match r with
   | '_' :: c :: d :: rest => isUpperAZ c && isUpperAZ d && endOrAt rest
   | _ => false)

/-- the `language` group: 2-3 lowercase letters (greedy), whose
lookahead must hold -/
def takeLang : List Char → Option (List Char × List Char)
  | a :: b :: c :: rest =>
    if isLowerAZ a && isLowerAZ b && isLowerAZ c && langLookaheadOk rest then
      some (a :: b :: c :: [], rest)
    else if isLowerAZ a && isLowerAZ b && langLookaheadOk (c :: rest) then
      some (a :: b :: [], c :: rest)
    else none
  | a :: b :: [] =>
    if isLowerAZ a && isLowerAZ b then some (a :: b :: [], []) else none
  | _ => none

/-- the optional `_script` group `[A-Z][a-z]{3}` with its lookahead -/
def takeScript : List Char → Option (List Char × List Char)
  | '_' :: c :: d :: e :: f :: rest =>
    if isUpperAZ c && isLowerAZ d && isLowerAZ e && isLowerAZ f && afterScriptOk rest then
      some (c :: d :: e :: f :: [], rest)
    else none
  | _ => none

/-- the optional `_territory` group `[A-Z]{2}` with its lookahead -/
def takeTerr : List Char → Option (List Char × List Char)
  | '_' :: c :: d :: rest =>
    if isUpperAZ c && isUpperAZ d && endOrAt rest then some (c :: d :: [], rest)
    else none
  | _ => none

/-- `_cldr_locale_pattern.match(s)`: `some (language, script?, territory?)`
on a match, `none` when the match fails. -/
def matchCldr (s : List Char) : Option (List Char × Option (List Char) × Option (List Char)) :=
  match takeLang s with
  | none => none
  | some (lang, r1) =>
    match takeScript r1 with
    | some (scr, r2) =>
      (match takeTerr r2 with
       | some (terr, _) => some (lang, some scr, some terr)
       | none => some (lang, some scr, none))
    | none =>
      (match takeTerr r1 with
       | some (terr, _) => some (lang, none, some terr)
       | none => some (lang, none, none))

/-! ## `_parse_and_split_languageId` -/

/-- `_parse_and_split_languageId(languageId, scriptId, territoryId)`.

Replaces the glibc script names in `scriptId` and `languageId` (the
`if scriptId:`/`if languageId:` guards only skip falsy strings, on
which the replacement is the identity anyway), then matches
`languageId` against the CLDR pattern; on a match the parsed groups
overwrite the given values (script/territory only when their group is
present), on no match everything is passed through. -/
def parse_and_split_core (languageId scriptId territoryId : Option String) :
    Option String × Option String × Option String :=
  if pyTruthy languageId then
    match languageId with
    | some lid =>
      (match matchCldr lid.data with
       | some g =>
         (some (String.mk g.1),
          (match g.2.1 with
           | some sc => some (String.mk sc)
           | none => scriptId),
          (match g.2.2 with
           | some tr => some (String.mk tr)
           | none => territoryId))
       | none => (languageId, scriptId, territoryId))
    | none => (languageId, scriptId, territoryId)
  else (languageId, scriptId, territoryId)

def parse_and_split_languageId (languageId scriptId territoryId : Option String) :
    Option String × Option String × Option String :=
  parse_and_split_core (languageId.map glibcSubs) (scriptId.map glibcSubs) territoryId

example : parse_and_split_languageId (some "sr_latin_RS") none none =
    (some "sr", some "Latn", some "RS") := by decide

example : parse_and_split_languageId (some "de") none (some "CH") =
    (some "de", none, some "CH") := by decide

example : parse_and_split_languageId (some "de_DE.UTF-8") none none =
    (some "de_DE.UTF-8", none, none) := by decide

/-! ## Data model

Three entity tables (`_territories_db`, `_languages_db`,
`_keyboards_db`), each mapping a string identifier to a record.
Python dicts are modelled as association lists in iteration order with
unique keys. -/

structure territory_db_item where
  names : List (String × String) := []
  locales : List (String × Nat) := []
  languages : List (String × Nat) := []
  keyboards : List (String × Nat) := []
  consolefonts : List (String × Nat) := []
  timezones : List (String × Nat) := []

structure language_db_item where
  iso639_1 : Option String := none
  iso639_2_t : Option String := none
  iso639_2_b : Option String := none
  names : List (String × String) := []
  locales : List (String × Nat) := []
  territories : List (String × Nat) := []
  keyboards : List (String × Nat) := []
  consolefonts : List (String × Nat) := []
  timezones : List (String × Nat) := []

structure keyboard_db_item where
  description : Option String := none
  ascii : Bool := true
  comment : Option String := none
  languages : List (String × Nat) := []
  territories : List (String × Nat) := []

/-- The three module-level tables. -/
structure Databases where
  territories : List (String × territory_db_item) := []
  languages : List (String × language_db_item) := []
  keyboards : List (String × keyboard_db_item) := []

/-- `d[k]` / `k in d` for a Python dict. -/
def dictGet? {α : Type} : List (String × α) → String → Option α
  | [], _ => none
  | (k, v) :: rest, key => if k = key then some v else dictGet? rest key

/-- `d[k] = v` for a Python dict: updating an existing key keeps its
slot, a fresh key is appended (the model's stand-in for taking a fresh
slot). -/
def dictSet {α : Type} : List (String × α) → String → α → List (String × α)
  | [], key, v => (key, v) :: []
  | (k, w) :: rest, key, v =>
    if k = key then (key, v) :: rest else (k, w) :: dictSet rest key v

/-- lookup with a possibly-`None` key (`None in d` is `False`). -/
def lookupOpt {α : Type} (d : List (String × α)) : Option String → Option α
  | none => none
  | some k => dictGet? d k

def hasKeyOpt {α : Type} (d : List (String × α)) (k : Option String) : Bool :=
  (lookupOpt d k).isSome

/-- `a+'_'+b` (defined only when both operands are present). -/
def catOpt2 : Option String → Option String → Option String
  | some a, some b => some (a ++ "_" ++ b)
  | _, _ => none

/-- `a+'_'+b+'_'+c`. -/
def catOpt3 : Option String → Option String → Option String → Option String
  | some a, some b, some c => some (a ++ "_" ++ b ++ "_" ++ c)
  | _, _, _ => none

def firstSome {α : Type} : Option α → Option α → Option α
  | some x, _ => some x
  | none, b => b

/-! ## `_dictionary_to_ranked_list`

`sorted(dict, key=dict.get, reverse=True)` is a stable sort of the
dict's keys by descending value (CPython's `sorted` is stable, and
`reverse=True` preserves stability).  A stable descending sort is
extensionally unique, so we model it by stable insertion sort on the
association list: an element is inserted after every strictly heavier
element and before every previously-later element of equal weight. -/

def insert_by_weight (x : String × Nat) : List (String × Nat) → List (String × Nat)
  | [] => x :: []
  | y :: ys => if y.2 > x.2 then y :: insert_by_weight x ys else x :: y :: ys

def dictionary_to_ranked_list : List (String × Nat) → List (String × Nat)
  | [] => []
  | x :: xs => insert_by_weight x (dictionary_to_ranked_list xs)

/-- `_ranked_list_to_list` -/
def ranked_list_to_list (l : List (String × Nat)) : List String := l.map Prod.fst

/-! ## `_make_ranked_list_concise`

Python 2 `/` on positive ints is floor division, i.e. `Nat` division. -/

def make_ranked_list_concise (cut_off_factor : Nat) : List (String × Nat) → List (String × Nat)
  | [] => []
  | x :: [] => x :: []
  | x :: y :: rest =>
    if x.2 / y.2 > cut_off_factor then x :: []
    else x :: make_ranked_list_concise cut_off_factor (y :: rest)

/-! ## The ranked recommendation engine -/

def extra_bonus : Nat := 1000000

/-- One evidence pass: for every candidate of `src` with non-zero
rank, merge `rank` into the accumulator dict.  Mirrors the loop body
shared by the three list functions:

```
if src[c] != 0:
    if c not in ranked: ranked[c] = src[c]
    else: ranked[c] *= src[c]; ranked[c] *= extra_bonus
    ranked[c] *= bonus
``` -/
def accumulate_ranks (bonus : Nat) (ranked : List (String × Nat)) (src : List (String × Nat)) :
    List (String × Nat) :=
  src.foldl
    (fun r kv =>
      if kv.2 ≠ 0 then
        match dictGet? r kv.1 with
        | none => dictSet r kv.1 (kv.2 * bonus)
        | some w => dictSet r kv.1 (w * kv.2 * extra_bonus * bonus)
      else r)
    ranked

/-- The compound-key resolution appearing verbatim in `list_locales`,
`list_keyboards` and `list_consolefonts` (lines 905-912, 968-975,
1011-1018): try `lang_script_territory`, `lang_script`,
`lang_territory` in the `Language` table; returns the substituted
language id and the `skipTerritory` flag (note: the `lang_script`
branch does not set `skipTerritory` in the source). -/
def resolve_compound_language (langdb : List (String × language_db_item))
    (languageId scriptId territoryId : Option String) : Option String × Bool :=
  if pyTruthy languageId && pyTruthy scriptId && pyTruthy territoryId &&
      hasKeyOpt langdb (catOpt3 languageId scriptId territoryId) then
    (catOpt3 languageId scriptId territoryId, true)
  else if pyTruthy languageId && pyTruthy scriptId &&
      hasKeyOpt langdb (catOpt2 languageId scriptId) then
    (catOpt2 languageId scriptId, false)
  else if pyTruthy languageId && pyTruthy territoryId &&
      hasKeyOpt langdb (catOpt2 languageId territoryId) then
    (catOpt2 languageId territoryId, true)
  else (languageId, false)

/-- The merged weight dict built by `list_locales` before sorting.
`language_bonus = 100`; the territory pass is guarded by
`territoryId in _territories_db and not skipTerritory`. -/
def list_locales_ranked_dict (db : Databases)
    (languageId scriptId territoryId : Option String) : List (String × Nat) :=
  let p := parse_and_split_languageId languageId scriptId territoryId
  let r := resolve_compound_language db.languages p.1 p.2.1 p.2.2
  let language_bonus := 100
  let ranked : List (String × Nat) :=
    match lookupOpt db.languages r.1 with
    | some e => accumulate_ranks language_bonus [] e.locales
    | none => []
  let territory_bonus := 1
  if r.2 then ranked
  else
    match lookupOpt db.territories p.2.2 with
    | some e => accumulate_ranks territory_bonus ranked e.locales
    | none => ranked

/-- `list_locales(concise, show_weights=True, ...)` (the ranked list of
`[locale, weight]` pairs). -/
def list_locales_with_weights (db : Databases) (concise : Bool)
    (languageId scriptId territoryId : Option String) : List (String × Nat) :=
  let ranked_list := dictionary_to_ranked_list (list_locales_ranked_dict db languageId scriptId territoryId)
  if concise then make_ranked_list_concise 1000 ranked_list else ranked_list

/-- `list_locales(concise, show_weights=False, ...)`. -/
def list_locales (db : Databases) (concise : Bool)
    (languageId scriptId territoryId : Option String) : List String :=
  ranked_list_to_list (list_locales_with_weights db concise languageId scriptId territoryId)

/-- The merged weight dict built by `list_keyboards` before sorting.
`language_bonus = 1`; the territory pass is guarded only by
`territoryId in _territories_db` -- the `skipTerritory` flag computed
by the compound-key resolution is never consulted in the source. -/
def list_keyboards_ranked_dict (db : Databases)
    (languageId scriptId territoryId : Option String) : List (String × Nat) :=
  let p := parse_and_split_languageId languageId scriptId territoryId
  let r := resolve_compound_language db.languages p.1 p.2.1 p.2.2
  let language_bonus := 1
  let ranked : List (String × Nat) :=
    match lookupOpt db.languages r.1 with
    | some e => accumulate_ranks language_bonus [] e.keyboards
    | none => []
  let territory_bonus := 1
  match lookupOpt db.territories p.2.2 with
  | some e => accumulate_ranks territory_bonus ranked e.keyboards
  | none => ranked

def list_keyboards_with_weights (db : Databases) (concise : Bool)
    (languageId scriptId territoryId : Option String) : List (String × Nat) :=
  let ranked_list := dictionary_to_ranked_list (list_keyboards_ranked_dict db languageId scriptId territoryId)
  if concise then make_ranked_list_concise 1000 ranked_list else ranked_list

def list_keyboards (db : Databases) (concise : Bool)
    (languageId scriptId territoryId : Option String) : List String :=
  ranked_list_to_list (list_keyboards_with_weights db concise languageId scriptId territoryId)

/-- The merged weight dict built by `list_consolefonts` before
sorting.  `language_bonus = 100`; as in `list_keyboards`, the
territory pass does not consult `skipTerritory` in the source. -/
def list_consolefonts_ranked_dict (db : Databases)
    (languageId scriptId territoryId : Option String) : List (String × Nat) :=
  let p := parse_and_split_languageId languageId scriptId territoryId
  let r := resolve_compound_language db.languages p.1 p.2.1 p.2.2
  let language_bonus := 100
  let ranked : List (String × Nat) :=
    match lookupOpt db.languages r.1 with
    | some e => accumulate_ranks language_bonus [] e.consolefonts
    | none => []
  let territory_bonus := 1
  match lookupOpt db.territories p.2.2 with
  | some e => accumulate_ranks territory_bonus ranked e.consolefonts
  | none => ranked

def list_consolefonts_with_weights (db : Databases) (concise : Bool)
    (languageId scriptId territoryId : Option String) : List (String × Nat) :=
  let ranked_list := dictionary_to_ranked_list (list_consolefonts_ranked_dict db languageId scriptId territoryId)
  if concise then make_ranked_list_concise 1000 ranked_list else ranked_list

def list_consolefonts (db : Databases) (concise : Bool)
    (languageId scriptId territoryId : Option String) : List String :=
  ranked_list_to_list (list_consolefonts_with_weights db concise languageId scriptId territoryId)

/-! ## The cascading name resolver -/

/-- The 4-level query cascade (`lang_script_terr`, `lang_script`,
`lang_terr`, `lang`) run against a `names` dict; appears verbatim in
`territory_name` and in each block of `language_name`. -/
def name_cascade (names : List (String × String))
    (languageIdQuery scriptIdQuery territoryIdQuery : Option String) : Option String :=
  firstSome
    (if pyTruthy languageIdQuery && pyTruthy scriptIdQuery && pyTruthy territoryIdQuery then
       lookupOpt names (catOpt3 languageIdQuery scriptIdQuery territoryIdQuery)
     else none)
    (firstSome
      (if pyTruthy languageIdQuery && pyTruthy scriptIdQuery then
         lookupOpt names (catOpt2 languageIdQuery scriptIdQuery)
       else none)
      (firstSome
        (if pyTruthy languageIdQuery && pyTruthy territoryIdQuery then
           lookupOpt names (catOpt2 languageIdQuery territoryIdQuery)
         else none)
        (if pyTruthy languageIdQuery then lookupOpt names languageIdQuery else none)))

/-- `territory_name(territoryId, languageIdQuery, scriptIdQuery,
territoryIdQuery)`. -/
def territory_name (db : Databases)
    (territoryId languageIdQuery scriptIdQuery territoryIdQuery : Option String) : String :=
  let q := parse_and_split_languageId languageIdQuery scriptIdQuery territoryIdQuery
  match lookupOpt db.territories territoryId with
  | some e => (name_cascade e.names q.1 q.2.1 q.2.2).getD ""
  | none => ""

/-- The body of `language_name`; `recur` stands for the recursive
call (it is applied to `languageId` with script and territory
absent). -/
def languageNameBody (db : Databases)
    (recur : Option String → Option String → Option String →
      Option String → Option String → Option String → String)
    (languageId0 scriptId0 territoryId0
     languageIdQuery0 scriptIdQuery0 territoryIdQuery0 : Option String) : String :=
  let p := parse_and_split_languageId languageId0 scriptId0 territoryId0
  let languageId := p.1
  let scriptId := p.2.1
  let territoryId := p.2.2
  let q := parse_and_split_languageId languageIdQuery0 scriptIdQuery0 territoryIdQuery0
  -- endonym defaulting: `if not languageIdQuery:` take the subject triple
  let languageIdQuery := if pyTruthy q.1 then q.1 else languageId
  let scriptIdQuery := if pyTruthy q.1 then q.2.1 else scriptId
  let territoryIdQuery := if pyTruthy q.1 then q.2.2 else territoryId
  let block1 :=
    if pyTruthy languageId && pyTruthy scriptId && pyTruthy territoryId then
      match lookupOpt db.languages (catOpt3 languageId scriptId territoryId) with
      | some e => name_cascade e.names languageIdQuery scriptIdQuery territoryIdQuery
      | none => none
    else none
  let block2 :=
    if pyTruthy languageId && pyTruthy scriptId then
      match lookupOpt db.languages (catOpt2 languageId scriptId) with
      | some e => name_cascade e.names languageIdQuery scriptIdQuery territoryIdQuery
      | none => none
    else none
  let block3 :=
    if pyTruthy languageId && pyTruthy territoryId then
      firstSome
        (match lookupOpt db.languages (catOpt2 languageId territoryId) with
         | some e => name_cascade e.names languageIdQuery scriptIdQuery territoryIdQuery
         | none => none)
        (let lname := recur languageId none none
           languageIdQuery scriptIdQuery territoryIdQuery
         let cname := territory_name db territoryId
           languageIdQuery scriptIdQuery territoryIdQuery
         if lname ≠ "" && cname ≠ "" then some (lname ++ " (" ++ cname ++ ")")
         else none)
    else none
  let block4 :=
    if pyTruthy languageId then
      match lookupOpt db.languages languageId with
      | some e => name_cascade e.names languageIdQuery scriptIdQuery territoryIdQuery
      | none => none
    else none
  (firstSome block1 (firstSome block2 (firstSome block3 block4))).getD ""

/-- `language_name`, with an explicit recursion-depth fuel.  The only
recursive call (synthesizing `"<language> (<territory>)"`) passes
`scriptId`/`territoryId` as absent; fuel `0` is never reached from
fuel `≥ 2` (see the termination theorem below), and `language_name`
is `languageNameFuel 2`. -/
def languageNameFuel (db : Databases) :
    Nat → Option String → Option String → Option String →
    Option String → Option String → Option String → String
  | 0, _, _, _, _, _, _ => ""
  | fuel + 1, languageId0, scriptId0, territoryId0,
      languageIdQuery0, scriptIdQuery0, territoryIdQuery0 =>
    languageNameBody db (languageNameFuel db fuel)
      languageId0 scriptId0 territoryId0
      languageIdQuery0 scriptIdQuery0 territoryIdQuery0

theorem languageNameFuel_succ (db : Databases) (fuel : Nat)
    (a b c q1 q2 q3 : Option String) :
    languageNameFuel db (fuel + 1) a b c q1 q2 q3 =
      languageNameBody db (languageNameFuel db fuel) a b c q1 q2 q3 := rfl

/-- `language_name(languageId, scriptId, territoryId,
languageIdQuery, scriptIdQuery, territoryIdQuery)`. -/
def language_name (db : Databases)
    (languageId scriptId territoryId
     languageIdQuery scriptIdQuery territoryIdQuery : Option String) : String :=
  languageNameFuel db 2 languageId scriptId territoryId
    languageIdQuery scriptIdQuery territoryIdQuery

/-! ## Lemmas about the dictionary model -/

theorem dictGet?_dictSet {α : Type} (d : List (String × α)) (k c : String) (v : α) :
    dictGet? (dictSet d k v) c = if k = c then some v else dictGet? d c := by
  induction d with
  | nil => simp [dictSet, dictGet?]
  | cons kv rest ih =>
    obtain ⟨k', v'⟩ := kv
    by_cases hk : k' = k
    · subst hk
      by_cases hc : k' = c <;> simp [dictSet, dictGet?, hc]
    · by_cases hc : k' = c
      · subst hc
        have hkc : ¬k = k' := fun h => hk h.symm
        simp [dictSet, dictGet?, hk, hkc]
      · simp [dictSet, dictGet?, hk, hc, ih]

theorem dictGet?_eq_none_of_not_mem {α : Type} (d : List (String × α)) (c : String)
    (h : c ∉ d.map Prod.fst) : dictGet? d c = none := by
  induction d with
  | nil => rfl
  | cons kv rest ih =>
    simp only [List.map_cons, List.mem_cons] at h
    push_neg at h
    simp only [dictGet?]
    rw [if_neg, ih h.2]
    exact fun hx => h.1 (by simp [hx])

theorem mem_of_dictGet?_eq_some {α : Type} (d : List (String × α)) (c : String) (v : α)
    (h : dictGet? d c = some v) : (c, v) ∈ d := by
  induction d with
  | nil => simp [dictGet?] at h
  | cons kv rest ih =>
    obtain ⟨k', v'⟩ := kv
    simp only [dictGet?] at h
    by_cases hk : k' = c
    · rw [if_pos hk] at h
      simp only [Option.some.injEq] at h
      subst hk
      subst h
      exact List.mem_cons_self _ _
    · rw [if_neg hk] at h
      exact List.mem_cons_of_mem _ (ih h)

theorem mem_dictSet {α : Type} (d : List (String × α)) (k : String) (v : α) (q : String × α)
    (h : q ∈ dictSet d k v) : q = (k, v) ∨ q ∈ d := by
  induction d with
  | nil => simpa [dictSet] using h
  | cons kv rest ih =>
    simp only [dictSet] at h
    by_cases hk : kv.1 = k
    · rw [if_pos hk] at h
      rcases List.mem_cons.mp h with h | h
      · exact Or.inl h
      · exact Or.inr (List.mem_cons_of_mem _ h)
    · rw [if_neg hk] at h
      rcases List.mem_cons.mp h with h | h
      · exact Or.inr (List.mem_cons.mpr (Or.inl h))
      · rcases ih h with h | h
        · exact Or.inl h
        · exact Or.inr (List.mem_cons_of_mem _ h)

/-! ## Lemmas about `accumulate_ranks` -/

/-- What one evidence pass leaves at a candidate, as a function of the
candidate's rank in the source dict (`srcv`) and the accumulated value
before the pass (`oldv`). -/
def merge_pass_value (bonus : Nat) (srcv oldv : Option Nat) : Option Nat :=
  match srcv with
  | some v =>
    if v ≠ 0 then
      match oldv with
      | none => some (v * bonus)
      | some w => some (w * v * extra_bonus * bonus)
    else oldv
  | none => oldv

/-- The characteristic equation of one evidence pass at a candidate
`c`, for a source dict with unique keys. -/
theorem dictGet?_accumulate_ranks (bonus : Nat) (src : List (String × Nat)) :
    ∀ r c, (src.map Prod.fst).Nodup →
      dictGet? (accumulate_ranks bonus r src) c =
        merge_pass_value bonus (dictGet? src c) (dictGet? r c) := by
  induction src with
  | nil => intro r c _; rfl
  | cons kv rest ih =>
    intro r c hnd
    obtain ⟨k, v⟩ := kv
    simp only [List.map_cons, List.nodup_cons] at hnd
    have hstep : accumulate_ranks bonus r ((k, v) :: rest) =
        accumulate_ranks bonus
          (if v ≠ 0 then
             match dictGet? r k with
             | none => dictSet r k (v * bonus)
             | some w => dictSet r k (w * v * extra_bonus * bonus)
           else r) rest := rfl
    rw [hstep, ih _ c hnd.2]
    by_cases hkc : k = c
    · subst hkc
      rw [dictGet?_eq_none_of_not_mem rest k hnd.1]
      show dictGet? _ k = merge_pass_value bonus (dictGet? ((k, v) :: rest) k) (dictGet? r k)
      simp only [dictGet?, if_pos rfl]
      by_cases hv : v ≠ 0
      · rw [if_pos hv]
        cases hr : dictGet? r k with
        | none => simp [merge_pass_value, hr, hv, dictGet?_dictSet]
        | some w => simp [merge_pass_value, hr, hv, dictGet?_dictSet]
      · rw [if_neg hv]
        simp [merge_pass_value, hv]
    · have hget : dictGet?
          (if v ≠ 0 then
             match dictGet? r k with
             | none => dictSet r k (v * bonus)
             | some w => dictSet r k (w * v * extra_bonus * bonus)
           else r) c = dictGet? r c := by
        by_cases hv : v ≠ 0
        · rw [if_pos hv]
          cases hr : dictGet? r k <;> simp [dictGet?_dictSet, hkc]
        · rw [if_neg hv]
      rw [hget]
      show merge_pass_value bonus (dictGet? rest c) _ =
        merge_pass_value bonus (dictGet? ((k, v) :: rest) c) _
      simp [dictGet?, hkc]

/-- Every value an evidence pass stores is positive (provided the
accumulator held only positive values). -/
theorem accumulate_ranks_pos (bonus : Nat) (hb : 0 < bonus) (src : List (String × Nat)) :
    ∀ r, (∀ q ∈ r, 0 < q.2) →
      ∀ q ∈ accumulate_ranks bonus r src, 0 < q.2 := by
  induction src with
  | nil => intro r hr q hq; exact hr q hq
  | cons kv rest ih =>
    intro r hr q hq
    have hstep : accumulate_ranks bonus r (kv :: rest) =
        accumulate_ranks bonus
          (if kv.2 ≠ 0 then
             match dictGet? r kv.1 with
             | none => dictSet r kv.1 (kv.2 * bonus)
             | some w => dictSet r kv.1 (w * kv.2 * extra_bonus * bonus)
           else r) rest := rfl
    rw [hstep] at hq
    refine ih _ ?_ q hq
    intro p hp
    by_cases hv : kv.2 ≠ 0
    · rw [if_pos hv] at hp
      cases hg : dictGet? r kv.1 with
      | none =>
        rw [hg] at hp
        rcases mem_dictSet _ _ _ _ hp with h | h
        · subst h
          exact Nat.mul_pos (Nat.pos_of_ne_zero hv) hb
        · exact hr p h
      | some w =>
        rw [hg] at hp
        rcases mem_dictSet _ _ _ _ hp with h | h
        · subst h
          have hw : 0 < w := hr _ (mem_of_dictGet?_eq_some _ _ _ hg)
          have hx : 0 < extra_bonus := by decide
          exact Nat.mul_pos (Nat.mul_pos (Nat.mul_pos hw (Nat.pos_of_ne_zero hv)) hx) hb
        · exact hr p h
    · rw [if_neg hv] at hp
      exact hr p hp

/-! ## Lemmas about the stable descending sort -/

theorem mem_insert_by_weight (x q : String × Nat) (l : List (String × Nat)) :
    q ∈ insert_by_weight x l ↔ q = x ∨ q ∈ l := by
  induction l with
  | nil => simp [insert_by_weight]
  | cons y ys ih =>
    simp only [insert_by_weight]
    by_cases h : y.2 > x.2
    · rw [if_pos h]
      simp only [List.mem_cons, ih]
      tauto
    · rw [if_neg h]
      simp only [List.mem_cons]

theorem mem_dictionary_to_ranked_list (q : String × Nat) (d : List (String × Nat)) :
    q ∈ dictionary_to_ranked_list d ↔ q ∈ d := by
  induction d with
  | nil => simp [dictionary_to_ranked_list]
  | cons x xs ih =>
    simp only [dictionary_to_ranked_list, mem_insert_by_weight, List.mem_cons, ih]

theorem pairwise_insert_by_weight (x : String × Nat) (l : List (String × Nat))
    (h : List.Pairwise (fun a b : String × Nat => b.2 ≤ a.2) l) :
    List.Pairwise (fun a b : String × Nat => b.2 ≤ a.2) (insert_by_weight x l) := by
  induction l with
  | nil => simp [insert_by_weight]
  | cons y ys ih =>
    simp only [insert_by_weight]
    rcases List.pairwise_cons.mp h with ⟨hy, hys⟩
    by_cases hw : y.2 > x.2
    · rw [if_pos hw]
      refine List.pairwise_cons.mpr ⟨?_, ih hys⟩
      intro b hb
      rcases (mem_insert_by_weight x b ys).mp hb with rfl | hb
      · omega
      · exact hy b hb
    · rw [if_neg hw]
      refine List.pairwise_cons.mpr ⟨?_, h⟩
      intro b hb
      rcases List.mem_cons.mp hb with rfl | hb
      · omega
      · have := hy b hb
        omega

theorem pairwise_dictionary_to_ranked_list (d : List (String × Nat)) :
    List.Pairwise (fun a b : String × Nat => b.2 ≤ a.2) (dictionary_to_ranked_list d) := by
  induction d with
  | nil => simp [dictionary_to_ranked_list]
  | cons x xs ih => exact pairwise_insert_by_weight x _ ih

/-- Stability: the elements of any fixed weight `w` come out of the
sort in exactly the order in which the dictionary held them. -/
theorem filter_insert_by_weight (w : Nat) (x : String × Nat) (l : List (String × Nat)) :
    (insert_by_weight x l).filter (fun p => p.2 == w) =
      if x.2 == w then x :: l.filter (fun p => p.2 == w)
      else l.filter (fun p => p.2 == w) := by
  induction l with
  | nil =>
    by_cases hw : (x.2 == w) = true <;> simp [insert_by_weight, List.filter, hw]
  | cons y ys ih =>
    simp only [insert_by_weight]
    by_cases hgt : y.2 > x.2
    · rw [if_pos hgt]
      by_cases hxw : (x.2 == w) = true
      · have hx : x.2 = w := by simpa using hxw
        have hyw : (y.2 == w) = false := by
          simp only [beq_eq_false_iff_ne, ne_eq]
          omega
        rw [List.filter_cons, List.filter_cons]
        simp only [hyw, ih, hxw, if_pos, if_true, Bool.false_eq_true, if_false]
      · have hxw' : (x.2 == w) = false := by simpa using hxw
        rw [List.filter_cons, List.filter_cons]
        simp only [ih, hxw', Bool.false_eq_true, if_false]
    · rw [if_neg hgt]
      by_cases hxw : (x.2 == w) = true
      · rw [if_pos hxw, List.filter_cons, List.filter_cons, if_pos hxw]
      · have hxw' : (x.2 == w) = false := by simpa using hxw
        rw [if_neg (by simp [hxw']), List.filter_cons, List.filter_cons]
        simp [hxw']

theorem filter_dictionary_to_ranked_list (w : Nat) (d : List (String × Nat)) :
    (dictionary_to_ranked_list d).filter (fun p => p.2 == w) =
      d.filter (fun p => p.2 == w) := by
  induction d with
  | nil => rfl
  | cons x xs ih =>
    rw [dictionary_to_ranked_list, filter_insert_by_weight, List.filter_cons]
    by_cases hxw : (x.2 == w) = true
    · rw [if_pos hxw, if_pos hxw, ih]
    · have hxw' : (x.2 == w) = false := by simpa using hxw
      rw [if_neg (by simp [hxw']), ih]
      simp [hxw']

/-! ## Lemmas about `_make_ranked_list_concise` -/

/-- The index of the first adjacent pair whose (floor) weight ratio
exceeds the cut-off factor -- the specification-side description of the
truncation point. -/
def first_cut_index (cut_off_factor : Nat) (rl : List (String × Nat)) : Option Nat :=
  (List.range (rl.length - 1)).find?
    (fun i => (rl.getD i ("", 0)).2 / (rl.getD (i + 1) ("", 0)).2 > cut_off_factor)

theorem mem_of_mem_make_ranked_list_concise (cut : Nat) :
    ∀ l (b : String × Nat), b ∈ make_ranked_list_concise cut l → b ∈ l := by
  intro l
  induction l with
  | nil => intro b hb; simpa [make_ranked_list_concise] using hb
  | cons x xs ih =>
    cases xs with
    | nil => intro b hb; simpa [make_ranked_list_concise] using hb
    | cons y rest =>
      intro b hb
      simp only [make_ranked_list_concise] at hb
      by_cases hc : x.2 / y.2 > cut
      · rw [if_pos hc] at hb
        simp only [List.mem_singleton] at hb
        simp [hb]
      · rw [if_neg hc] at hb
        rcases List.mem_cons.mp hb with rfl | hb
        · simp
        · exact List.mem_cons_of_mem _ (ih b hb)

theorem make_ranked_list_concise_pairwise (cut : Nat) (rl : List (String × Nat))
    (h : List.Pairwise (fun a b : String × Nat => b.2 ≤ a.2) rl) :
    List.Pairwise (fun a b : String × Nat => b.2 ≤ a.2) (make_ranked_list_concise cut rl) := by
  induction rl with
  | nil => simpa [make_ranked_list_concise] using h
  | cons x xs ih =>
    cases xs with
    | nil => simpa [make_ranked_list_concise] using h
    | cons y rest =>
      simp only [make_ranked_list_concise]
      rcases List.pairwise_cons.mp h with ⟨hx, hrest⟩
      by_cases hc : x.2 / y.2 > cut
      · rw [if_pos hc]
        simp
      · rw [if_neg hc]
        refine List.pairwise_cons.mpr ⟨?_, ih hrest⟩
        intro b hb
        exact hx b (mem_of_mem_make_ranked_list_concise cut _ b hb)

theorem first_cut_index_cons (cut : Nat) (x y : String × Nat) (rest : List (String × Nat)) :
    first_cut_index cut (x :: y :: rest) =
      if x.2 / y.2 > cut then some 0
      else (first_cut_index cut (y :: rest)).map Nat.succ := by
  unfold first_cut_index
  simp only [List.length_cons, Nat.add_sub_cancel]
  rw [List.range_succ_eq_map]
  by_cases hc : x.2 / y.2 > cut
  · rw [if_pos hc, List.find?_cons_of_pos]
    simpa using hc
  · rw [if_neg hc, List.find?_cons_of_neg, List.find?_map]
    · have hpred :
          ((fun i => decide ((List.getD (x :: y :: rest) i ("", 0)).2 /
              (List.getD (x :: y :: rest) (i + 1) ("", 0)).2 > cut)) ∘ Nat.succ) =
          (fun i => decide ((List.getD (y :: rest) i ("", 0)).2 /
              (List.getD (y :: rest) (i + 1) ("", 0)).2 > cut)) := by
        funext i
        simp [Function.comp, List.getD_cons_succ]
      rw [hpred]
    · simpa using hc

/-- C5: the conciseness step truncates at the first adjacent pair
(scanning from the front) whose weight ratio `weight[i] / weight[i+1]`
(Python 2 floor division) exceeds the cut-off factor, keeping exactly
indices `0..i` and scanning no further; with no such pair -- in
particular for lists of length 0 or 1 -- the list is returned
unchanged. -/
theorem make_ranked_list_concise_truncates_at_first_cut (cut : Nat) (rl : List (String × Nat)) :
    (make_ranked_list_concise cut rl =
      match first_cut_index cut rl with
      | some i => rl.take (i + 1)
      | none => rl) ∧
    (rl.length ≤ 1 → make_ranked_list_concise cut rl = rl) := by
  constructor
  · induction rl with
    | nil => rfl
    | cons x xs ih =>
      cases xs with
      | nil => rfl
      | cons y rest =>
        rw [first_cut_index_cons]
        simp only [make_ranked_list_concise]
        by_cases hc : x.2 / y.2 > cut
        · rw [if_pos hc, if_pos hc]
          rfl
        · rw [if_neg hc, if_neg hc, ih]
          cases hfc : first_cut_index cut (y :: rest) with
          | none => rfl
          | some i => simp [List.take_succ_cons]
  · intro hlen
    match rl with
    | [] => rfl
    | x :: [] => rfl
    | x :: y :: rest => simp at hlen

theorem make_ranked_list_concise_truncates_at_first_cut_witness :
    make_ranked_list_concise 1000 (("a", 1000000) :: ("b", 500) :: ("c", 1) :: []) =
      ("a", 1000000) :: [] ∧
    make_ranked_list_concise 1000 (("x", 5) :: []) = ("x", 5) :: [] := by
  constructor
  · have h := (make_ranked_list_concise_truncates_at_first_cut 1000
      (("a", 1000000) :: ("b", 500) :: ("c", 1) :: [])).1
    rw [h]
    decide
  · exact (make_ranked_list_concise_truncates_at_first_cut 1000
      (("x", 5) :: [])).2 (by decide)

/-- C8: for every `territoryId` that is not a key of the Territory
table (including an absent one), `territory_name` returns the empty
string, whatever the query parameters are; no exceptional path
exists. -/
theorem territory_name_unknown_empty (db : Databases)
    (territoryId languageIdQuery scriptIdQuery territoryIdQuery : Option String)
    (h : lookupOpt db.territories territoryId = none) :
    territory_name db territoryId languageIdQuery scriptIdQuery territoryIdQuery = "" := by
  unfold territory_name
  rw [h]

theorem territory_name_unknown_empty_witness :
    lookupOpt ({} : Databases).territories (some "ZZ") = none ∧
    territory_name {} (some "ZZ") (some "de") none none = "" :=
  ⟨rfl, territory_name_unknown_empty {} (some "ZZ") (some "de") none none rfl⟩

/-! ## Example table states -/

/-- A state in which the input `(languageId="de", territoryId="CH")`
resolves the compound Language key `de_CH`, setting `skipTerritory`. -/
def exdbC1 : Databases :=
  { languages :=
      ("de_CH",
        { locales := ("de_CH.UTF-8", 9) :: [],
          keyboards := ("de", 7) :: [],
          consolefonts := ("lat1", 3) :: [] }) :: [],
    territories :=
      ("CH",
        { locales := ("de_CH.UTF-8", 10) :: [],
          keyboards := ("ch", 5) :: [],
          consolefonts := ("lat9w", 4) :: [] }) :: [] }

/-- C1: the claim says that whenever the compound-key resolution sets
`skipTerritory`, the territory evidence pass contributes nothing in
each of the three list functions.  That holds for `list_locales`
(last conjunct) but fails for `list_keyboards` and
`list_consolefonts`: both compute `skipTerritory` and never read it,
so the territory entry's candidates (`ch` with weight `5`, `lat9w`
with weight `4`) still enter the result. -/
theorem territory_pass_not_skipped_in_keyboards_consolefonts :
    (resolve_compound_language exdbC1.languages (some "de") none (some "CH")).2 = true ∧
    list_keyboards_with_weights exdbC1 true (some "de") none (some "CH") =
      ("de", 7) :: ("ch", 5) :: [] ∧
    list_consolefonts_with_weights exdbC1 true (some "de") none (some "CH") =
      ("lat1", 300) :: ("lat9w", 4) :: [] ∧
    list_locales_with_weights exdbC1 true (some "de") none (some "CH") =
      ("de_CH.UTF-8", 900) :: [] := by
  decide

/-- A state with the compound Language key `sr_Latn` and a Territory
entry for `RS`. -/
def exdbC2 : Databases :=
  { languages := ("sr_Latn", {}) :: [],
    territories := ("RS", { locales := ("sr_RS.UTF-8", 4) :: [] }) :: [] }

/-- C2 (counterexample): resolving the `lang_script` compound key does
NOT set `skipTerritory`: with `sr_Latn` present in the Language table,
the resolution substitutes the compound key but returns
`skipTerritory = false`, and the territory pass still contributes
(`sr_RS.UTF-8` reaches the result of `list_locales`). -/
theorem lang_script_leaves_skipTerritory_false :
    hasKeyOpt exdbC2.languages (catOpt2 (some "sr") (some "Latn")) = true ∧
    resolve_compound_language exdbC2.languages (some "sr") (some "Latn") (some "RS") =
      (some "sr_Latn", false) ∧
    list_locales_with_weights exdbC2 true (some "sr") (some "Latn") (some "RS") =
      ("sr_RS.UTF-8", 4) :: [] := by
  decide

/-- C2 (amended): the compound keys are tried in the order
`lang_script_territory`, `lang_script`, `lang_territory`; the first
and the third branch set `skipTerritory` and substitute the compound
key, while the `lang_script` branch substitutes the compound key but
leaves `skipTerritory` false. -/
theorem resolve_compound_language_branches (langdb : List (String × language_db_item))
    (l s t : Option String) :
    ((pyTruthy l && pyTruthy s && pyTruthy t && hasKeyOpt langdb (catOpt3 l s t)) = true →
      resolve_compound_language langdb l s t = (catOpt3 l s t, true)) ∧
    ((pyTruthy l && pyTruthy s && pyTruthy t && hasKeyOpt langdb (catOpt3 l s t)) = false →
     (pyTruthy l && pyTruthy s && hasKeyOpt langdb (catOpt2 l s)) = true →
      resolve_compound_language langdb l s t = (catOpt2 l s, false)) ∧
    ((pyTruthy l && pyTruthy s && pyTruthy t && hasKeyOpt langdb (catOpt3 l s t)) = false →
     (pyTruthy l && pyTruthy s && hasKeyOpt langdb (catOpt2 l s)) = false →
     (pyTruthy l && pyTruthy t && hasKeyOpt langdb (catOpt2 l t)) = true →
      resolve_compound_language langdb l s t = (catOpt2 l t, true)) := by
  unfold resolve_compound_language
  refine ⟨?_, ?_, ?_⟩
  · intro h1
    simp [h1]
  · intro h1 h2
    simp [h1, h2]
  · intro h1 h2 h3
    simp [h1, h2, h3]

def exdbC2w : List (String × language_db_item) :=
  ("aa_Latn_RS", {}) :: ("sr_Latn", {}) :: ("de_CH", {}) :: []

theorem resolve_compound_language_branches_witness :
    resolve_compound_language exdbC2w (some "aa") (some "Latn") (some "RS") =
      (some "aa_Latn_RS", true) ∧
    resolve_compound_language exdbC2w (some "sr") (some "Latn") (some "RS") =
      (some "sr_Latn", false) ∧
    resolve_compound_language exdbC2w (some "de") none (some "CH") =
      (some "de_CH", true) := by
  refine ⟨?_, ?_, ?_⟩
  · have h := (resolve_compound_language_branches exdbC2w
      (some "aa") (some "Latn") (some "RS")).1 (by decide)
    rw [h]
    decide
  · have h := (resolve_compound_language_branches exdbC2w
      (some "sr") (some "Latn") (some "RS")).2.1 (by decide) (by decide)
    rw [h]
    decide
  · have h := (resolve_compound_language_branches exdbC2w
      (some "de") none (some "CH")).2.2 (by decide) (by decide) (by decide)
    rw [h]
    decide

/-- A territory whose locales dict holds two candidates of equal rank;
the dict's iteration order (`de_DE.UTF-8` in hash slot 0,
`de_AT.UTF-8` in hash slot 2 under CPython 2.7) is not ascending
lexicographic. -/
def exdbC3 : Databases :=
  { territories :=
      ("XX", { locales := ("de_DE.UTF-8", 5) :: ("de_AT.UTF-8", 5) :: [] }) :: [] }

/-- C3 (counterexample): with two candidates of equal combined weight,
the returned ranked list keeps the dictionary iteration order
(`de_DE.UTF-8` before `de_AT.UTF-8`) even though `de_AT.UTF-8` is
lexicographically smaller; the order is also not strictly
descending. -/
theorem ranked_tie_not_lexicographic :
    list_locales_with_weights exdbC3 true none none (some "XX") =
      ("de_DE.UTF-8", 5) :: ("de_AT.UTF-8", 5) :: [] ∧
    List.Lex (· < ·) "de_AT.UTF-8".data "de_DE.UTF-8".data := by
  constructor
  · decide
  · decide

/-- C3 (amended): the ranked lists are sorted by non-increasing
combined weight, and candidates of equal weight keep the dictionary's
iteration order (the sort is stable); no lexicographic tie-break takes
place. -/
theorem ranked_lists_sorted_and_stable :
    (∀ d, List.Pairwise (fun a b : String × Nat => b.2 ≤ a.2) (dictionary_to_ranked_list d)) ∧
    (∀ d w, (dictionary_to_ranked_list d).filter (fun p => p.2 == w) =
      d.filter (fun p => p.2 == w)) ∧
    (∀ db c l s t,
      List.Pairwise (fun a b : String × Nat => b.2 ≤ a.2)
        (list_locales_with_weights db c l s t)) ∧
    (∀ db c l s t,
      List.Pairwise (fun a b : String × Nat => b.2 ≤ a.2)
        (list_keyboards_with_weights db c l s t)) ∧
    (∀ db c l s t,
      List.Pairwise (fun a b : String × Nat => b.2 ≤ a.2)
        (list_consolefonts_with_weights db c l s t)) := by
  have haux : ∀ (c : Bool) (d : List (String × Nat)),
      List.Pairwise (fun a b : String × Nat => b.2 ≤ a.2)
        (if c then make_ranked_list_concise 1000 (dictionary_to_ranked_list d)
         else dictionary_to_ranked_list d) := by
    intro c d
    cases c
    · simpa using pairwise_dictionary_to_ranked_list d
    · simpa using make_ranked_list_concise_pairwise 1000 _ (pairwise_dictionary_to_ranked_list d)
  refine ⟨pairwise_dictionary_to_ranked_list, fun d w => filter_dictionary_to_ranked_list w d,
    ?_, ?_, ?_⟩
  · intro db c l s t
    exact haux c _
  · intro db c l s t
    exact haux c _
  · intro db c l s t
    exact haux c _

/-! ## The merged-weight formula (C4) -/

/-- The language-side evidence source of a list query: the category
rank mapping of the resolved (possibly compound) Language entry, or
empty when the entry is absent. -/
def language_source (db : Databases) (field : language_db_item → List (String × Nat))
    (l s t : Option String) : List (String × Nat) :=
  let p := parse_and_split_languageId l s t
  let r := resolve_compound_language db.languages p.1 p.2.1 p.2.2
  match lookupOpt db.languages r.1 with
  | some e => field e
  | none => []

/-- The territory-side evidence source of a list query. -/
def territory_source (db : Databases) (field : territory_db_item → List (String × Nat))
    (l s t : Option String) : List (String × Nat) :=
  let p := parse_and_split_languageId l s t
  match lookupOpt db.territories p.2.2 with
  | some e => field e
  | none => []

/-- The `skipTerritory` flag of a list query. -/
def query_skipTerritory (db : Databases) (l s t : Option String) : Bool :=
  let p := parse_and_split_languageId l s t
  (resolve_compound_language db.languages p.1 p.2.1 p.2.2).2

/-- The merge rule as the specification states it: rank 0 counts as
"no contribution"; a candidate ranked by both sources gets
`rank_language * rank_territory * 1000000 * languageBonus *
territoryBonus`; a candidate ranked by exactly one source gets that
source's `rank * bonus`. -/
def merged_weight_spec (language_bonus territory_bonus : Nat)
    (langRank terrRank : Option Nat) : Option Nat :=
  let lr : Option Nat := match langRank with
    | some v => if v = 0 then none else some v
    | none => none
  let tr : Option Nat := match terrRank with
    | some v => if v = 0 then none else some v
    | none => none
  match lr, tr with
  | some rl, some rt => some (rl * rt * 1000000 * language_bonus * territory_bonus)
  | some rl, none => some (rl * language_bonus)
  | none, some rt => some (rt * territory_bonus)
  | none, none => none

theorem dictGet?_one_pass (lb tb : Nat) (langSrc : List (String × Nat)) (c : String)
    (hl : (langSrc.map Prod.fst).Nodup) :
    dictGet? (accumulate_ranks lb [] langSrc) c =
      merged_weight_spec lb tb (dictGet? langSrc c) none := by
  rw [dictGet?_accumulate_ranks lb langSrc [] c hl]
  cases hL : dictGet? langSrc c with
  | none => rfl
  | some v =>
    by_cases hv : v = 0 <;>
      simp [merge_pass_value, merged_weight_spec, hv, dictGet?]

theorem dictGet?_two_pass (lb tb : Nat) (langSrc terrSrc : List (String × Nat)) (c : String)
    (hl : (langSrc.map Prod.fst).Nodup) (ht : (terrSrc.map Prod.fst).Nodup) :
    dictGet? (accumulate_ranks tb (accumulate_ranks lb [] langSrc) terrSrc) c =
      merged_weight_spec lb tb (dictGet? langSrc c) (dictGet? terrSrc c) := by
  rw [dictGet?_accumulate_ranks tb terrSrc _ c ht,
      dictGet?_accumulate_ranks lb langSrc [] c hl]
  cases hL : dictGet? langSrc c with
  | none =>
    cases hT : dictGet? terrSrc c with
    | none => rfl
    | some u =>
      by_cases hu : u = 0 <;>
        simp [merge_pass_value, merged_weight_spec, hu, dictGet?]
  | some v =>
    cases hT : dictGet? terrSrc c with
    | none =>
      by_cases hv : v = 0 <;>
        simp [merge_pass_value, merged_weight_spec, hv, dictGet?]
    | some u =>
      by_cases hv : v = 0
      · by_cases hu : u = 0 <;>
          simp [merge_pass_value, merged_weight_spec, hv, hu, dictGet?]
      · by_cases hu : u = 0
        · simp [merge_pass_value, merged_weight_spec, hv, hu, dictGet?]
        · simp only [merge_pass_value, merged_weight_spec, extra_bonus, hv, hu, dictGet?]
          norm_num
          rw [if_neg hu, if_neg hv]
          show some (v * lb * u * 1000000 * tb) = _
          congr 1
          ring

theorem list_locales_ranked_dict_eq (db : Databases) (l s t : Option String) :
    list_locales_ranked_dict db l s t =
      if query_skipTerritory db l s t then
        accumulate_ranks 100 [] (language_source db language_db_item.locales l s t)
      else
        accumulate_ranks 1
          (accumulate_ranks 100 [] (language_source db language_db_item.locales l s t))
          (territory_source db territory_db_item.locales l s t) := by
  unfold list_locales_ranked_dict query_skipTerritory language_source territory_source
  simp only
  cases hL : lookupOpt db.languages
      (resolve_compound_language db.languages (parse_and_split_languageId l s t).1
        (parse_and_split_languageId l s t).2.1 (parse_and_split_languageId l s t).2.2).1 with
  | none =>
    cases hr2 : (resolve_compound_language db.languages (parse_and_split_languageId l s t).1
        (parse_and_split_languageId l s t).2.1 (parse_and_split_languageId l s t).2.2).2
    · cases hT : lookupOpt db.territories (parse_and_split_languageId l s t).2.2 <;>
        simp [hL, hT, hr2, accumulate_ranks]
    · simp [hL, hr2, accumulate_ranks]
  | some e =>
    cases hr2 : (resolve_compound_language db.languages (parse_and_split_languageId l s t).1
        (parse_and_split_languageId l s t).2.1 (parse_and_split_languageId l s t).2.2).2
    · cases hT : lookupOpt db.territories (parse_and_split_languageId l s t).2.2 <;>
        simp [hL, hT, hr2, accumulate_ranks]
    · simp [hL, hr2, accumulate_ranks]

theorem list_keyboards_ranked_dict_eq (db : Databases) (l s t : Option String) :
    list_keyboards_ranked_dict db l s t =
      accumulate_ranks 1
        (accumulate_ranks 1 [] (language_source db language_db_item.keyboards l s t))
        (territory_source db territory_db_item.keyboards l s t) := by
  unfold list_keyboards_ranked_dict language_source territory_source
  simp only
  cases hL : lookupOpt db.languages
      (resolve_compound_language db.languages (parse_and_split_languageId l s t).1
        (parse_and_split_languageId l s t).2.1 (parse_and_split_languageId l s t).2.2).1 <;>
    cases hT : lookupOpt db.territories (parse_and_split_languageId l s t).2.2 <;>
      simp [hL, hT, accumulate_ranks]

theorem list_consolefonts_ranked_dict_eq (db : Databases) (l s t : Option String) :
    list_consolefonts_ranked_dict db l s t =
      accumulate_ranks 1
        (accumulate_ranks 100 [] (language_source db language_db_item.consolefonts l s t))
        (territory_source db territory_db_item.consolefonts l s t) := by
  unfold list_consolefonts_ranked_dict language_source territory_source
  simp only
  cases hL : lookupOpt db.languages
      (resolve_compound_language db.languages (parse_and_split_languageId l s t).1
        (parse_and_split_languageId l s t).2.1 (parse_and_split_languageId l s t).2.2).1 <;>
    cases hT : lookupOpt db.territories (parse_and_split_languageId l s t).2.2 <;>
      simp [hL, hT, accumulate_ranks]

/-- C4: the merged combined weight of every candidate: rank 0 in a
source contributes nothing; a candidate ranked by both applicable
evidence sources weighs `rank_language * rank_territory * 1000000 *
languageBonus * territoryBonus`; a candidate ranked by exactly one
source weighs that source's `rank * bonus`; `languageBonus` is 100 for
`list_locales` and `list_consolefonts` and 1 for `list_keyboards`;
`territoryBonus` is 1. -/
theorem combined_weight_formula :
    (∀ db l s t c,
      ((language_source db language_db_item.locales l s t).map Prod.fst).Nodup →
      ((territory_source db territory_db_item.locales l s t).map Prod.fst).Nodup →
      dictGet? (list_locales_ranked_dict db l s t) c =
        merged_weight_spec 100 1
          (dictGet? (language_source db language_db_item.locales l s t) c)
          (if query_skipTerritory db l s t then none
           else dictGet? (territory_source db territory_db_item.locales l s t) c)) ∧
    (∀ db l s t c,
      ((language_source db language_db_item.keyboards l s t).map Prod.fst).Nodup →
      ((territory_source db territory_db_item.keyboards l s t).map Prod.fst).Nodup →
      dictGet? (list_keyboards_ranked_dict db l s t) c =
        merged_weight_spec 1 1
          (dictGet? (language_source db language_db_item.keyboards l s t) c)
          (dictGet? (territory_source db territory_db_item.keyboards l s t) c)) ∧
    (∀ db l s t c,
      ((language_source db language_db_item.consolefonts l s t).map Prod.fst).Nodup →
      ((territory_source db territory_db_item.consolefonts l s t).map Prod.fst).Nodup →
      dictGet? (list_consolefonts_ranked_dict db l s t) c =
        merged_weight_spec 100 1
          (dictGet? (language_source db language_db_item.consolefonts l s t) c)
          (dictGet? (territory_source db territory_db_item.consolefonts l s t) c)) := by
  refine ⟨?_, ?_, ?_⟩
  · intro db l s t c hl ht
    rw [list_locales_ranked_dict_eq]
    cases hsk : query_skipTerritory db l s t
    · simp only [Bool.false_eq_true, if_false]
      exact dictGet?_two_pass 100 1 _ _ c hl ht
    · simp only [if_true]
      exact dictGet?_one_pass 100 1 _ c hl
  · intro db l s t c hl ht
    rw [list_keyboards_ranked_dict_eq]
    exact dictGet?_two_pass 1 1 _ _ c hl ht
  · intro db l s t c hl ht
    rw [list_consolefonts_ranked_dict_eq]
    exact dictGet?_two_pass 100 1 _ _ c hl ht

/-- A state where the bare language entry and the territory entry both
rank candidates, so that consensus weights arise. -/
def exdbC4 : Databases :=
  { languages :=
      ("de", { locales := ("de_DE.UTF-8", 8) :: ("de_CH.UTF-8", 2) :: [] }) :: [],
    territories :=
      ("CH", { locales := ("de_CH.UTF-8", 10) :: ("fr_CH.UTF-8", 6) :: [] }) :: [] }

theorem combined_weight_formula_witness :
    ((language_source exdbC4 language_db_item.locales (some "de") none (some "CH")).map
      Prod.fst).Nodup ∧
    ((territory_source exdbC4 territory_db_item.locales (some "de") none (some "CH")).map
      Prod.fst).Nodup ∧
    dictGet? (list_locales_ranked_dict exdbC4 (some "de") none (some "CH")) "de_CH.UTF-8" =
      some 2000000000 := by
  refine ⟨by decide, by decide, ?_⟩
  have h := combined_weight_formula.1 exdbC4 (some "de") none (some "CH") "de_CH.UTF-8"
    (by decide) (by decide)
  rw [h]
  decide

/-- C9: every weight in the ranked list handed to
`_make_ranked_list_concise` by the three list functions is strictly
positive (rank-0 entries are filtered out, the bonus factors are
at least 1, and `extra_bonus` is positive), so the floor division in
the conciseness scan never divides by zero. -/
theorem ranked_weights_positive :
    (∀ db l s t,
      ∀ q ∈ dictionary_to_ranked_list (list_locales_ranked_dict db l s t), 0 < q.2) ∧
    (∀ db l s t,
      ∀ q ∈ dictionary_to_ranked_list (list_keyboards_ranked_dict db l s t), 0 < q.2) ∧
    (∀ db l s t,
      ∀ q ∈ dictionary_to_ranked_list (list_consolefonts_ranked_dict db l s t), 0 < q.2) := by
  have hnil : ∀ q ∈ ([] : List (String × Nat)), 0 < q.2 := by simp
  refine ⟨?_, ?_, ?_⟩
  · intro db l s t q hq
    rw [mem_dictionary_to_ranked_list, list_locales_ranked_dict_eq] at hq
    cases hsk : query_skipTerritory db l s t
    · rw [hsk] at hq
      simp only [Bool.false_eq_true, if_false] at hq
      exact accumulate_ranks_pos 1 (by decide) _ _
        (accumulate_ranks_pos 100 (by decide) _ _ hnil) q hq
    · rw [hsk] at hq
      simp only [if_true] at hq
      exact accumulate_ranks_pos 100 (by decide) _ _ hnil q hq
  · intro db l s t q hq
    rw [mem_dictionary_to_ranked_list, list_keyboards_ranked_dict_eq] at hq
    exact accumulate_ranks_pos 1 (by decide) _ _
      (accumulate_ranks_pos 1 (by decide) _ _ hnil) q hq
  · intro db l s t q hq
    rw [mem_dictionary_to_ranked_list, list_consolefonts_ranked_dict_eq] at hq
    exact accumulate_ranks_pos 1 (by decide) _ _
      (accumulate_ranks_pos 100 (by decide) _ _ hnil) q hq

theorem ranked_weights_positive_witness :
    ("de_DE.UTF-8", 800) ∈
      dictionary_to_ranked_list (list_locales_ranked_dict exdbC4 (some "de") none (some "CH")) ∧
    0 < (("de_DE.UTF-8", 800) : String × Nat).2 := by
  refine ⟨by decide, ?_⟩
  exact ranked_weights_positive.1 exdbC4 (some "de") none (some "CH")
    ("de_DE.UTF-8", 800) (by decide)

/-! ## Idempotency of normalization (C6) -/

theorem replaceAll_of_not_contains (pat rep : List Char) :
    ∀ s, containsSub pat s = false → replaceAll pat rep s = s := by
  intro s
  induction s with
  | nil => intro _; rfl
  | cons c t ih =>
    intro h
    simp only [containsSub, Bool.or_eq_false_iff] at h
    rw [replaceAll_cons, if_neg (by simp [h.1]), ih h.2]

/-- Does the string contain any glibc script-alias key as a
substring?  (On such strings a replacement pass is the identity.) -/
def hasAliasKey : Option String → Bool
  | none => false
  | some s =>
    containsSub devanagariKey s.data || containsSub iqtelifKey s.data ||
    containsSub latinKey s.data || containsSub cyrillicKey s.data

theorem glibcSubsList_id (s : List Char)
    (h1 : containsSub devanagariKey s = false) (h2 : containsSub iqtelifKey s = false)
    (h3 : containsSub latinKey s = false) (h4 : containsSub cyrillicKey s = false) :
    glibcSubsList s = s := by
  unfold glibcSubsList
  rw [replaceAll_of_not_contains _ _ s h1, replaceAll_of_not_contains _ _ s h2,
      replaceAll_of_not_contains _ _ s h3, replaceAll_of_not_contains _ _ s h4]

theorem glibcSubs_opt_id (o : Option String) (h : hasAliasKey o = false) :
    o.map glibcSubs = o := by
  cases o with
  | none => rfl
  | some s =>
    simp only [hasAliasKey, Bool.or_eq_false_iff] at h
    show some (glibcSubs s) = some s
    congr 1
    show String.mk (glibcSubsList s.data) = s
    rw [glibcSubsList_id s.data h.1.1.1 h.1.1.2 h.1.2 h.2]

theorem takeLang_cases (s lang r : List Char) (h : takeLang s = some (lang, r)) :
    (∃ a b, lang = a :: b :: [] ∧ isLowerAZ a = true ∧ isLowerAZ b = true) ∨
    (∃ a b c, lang = a :: b :: c :: [] ∧
      isLowerAZ a = true ∧ isLowerAZ b = true ∧ isLowerAZ c = true) := by
  match s with
  | [] => simp [takeLang] at h
  | a :: [] => simp [takeLang] at h
  | a :: b :: [] =>
    simp only [takeLang] at h
    by_cases hab : (isLowerAZ a && isLowerAZ b) = true
    · rw [if_pos hab] at h
      simp only [Option.some.injEq, Prod.mk.injEq] at h
      rcases Bool.and_eq_true_iff.mp hab with ⟨ha, hb⟩
      exact Or.inl ⟨a, b, h.1.symm, ha, hb⟩
    · rw [if_neg hab] at h
      simp at h
  | a :: b :: c :: rest =>
    simp only [takeLang] at h
    by_cases h3 : (isLowerAZ a && isLowerAZ b && isLowerAZ c && langLookaheadOk rest) = true
    · rw [if_pos h3] at h
      simp only [Option.some.injEq, Prod.mk.injEq] at h
      rcases Bool.and_eq_true_iff.mp h3 with ⟨h3', _⟩
      rcases Bool.and_eq_true_iff.mp h3' with ⟨h3'', hc⟩
      rcases Bool.and_eq_true_iff.mp h3'' with ⟨ha, hb⟩
      exact Or.inr ⟨a, b, c, h.1.symm, ha, hb, hc⟩
    · rw [if_neg h3] at h
      by_cases h2 : (isLowerAZ a && isLowerAZ b && langLookaheadOk (c :: rest)) = true
      · rw [if_pos h2] at h
        simp only [Option.some.injEq, Prod.mk.injEq] at h
        rcases Bool.and_eq_true_iff.mp h2 with ⟨h2', _⟩
        rcases Bool.and_eq_true_iff.mp h2' with ⟨ha, hb⟩
        exact Or.inl ⟨a, b, h.1.symm, ha, hb⟩
      · rw [if_neg h2] at h
        simp at h

theorem matchCldr_two_lower (a b : Char)
    (ha : isLowerAZ a = true) (hb : isLowerAZ b = true) :
    matchCldr (a :: b :: []) = some (a :: b :: [], none, none) := by
  simp [matchCldr, takeLang, takeScript, takeTerr, ha, hb]

theorem matchCldr_three_lower (a b c : Char)
    (ha : isLowerAZ a = true) (hb : isLowerAZ b = true) (hc : isLowerAZ c = true) :
    matchCldr (a :: b :: c :: []) = some (a :: b :: c :: [], none, none) := by
  simp [matchCldr, takeLang, takeScript, takeTerr, langLookaheadOk, endOrAt,
    afterScriptOk, ha, hb, hc]

theorem matchCldr_first_component (s : List Char)
    (g : List Char × Option (List Char) × Option (List Char)) (h : matchCldr s = some g) :
    ∃ r1, takeLang s = some (g.1, r1) := by
  cases htl : takeLang s with
  | none =>
    unfold matchCldr at h
    rw [htl] at h
    simp at h
  | some p =>
    obtain ⟨lang, r1⟩ := p
    refine ⟨r1, ?_⟩
    cases hsc : takeScript r1 with
    | some q =>
      obtain ⟨scr, r2⟩ := q
      cases htt : takeTerr r2 with
      | some u =>
        obtain ⟨terr, r3⟩ := u
        have hm : matchCldr s = some (lang, some scr, some terr) := by
          simp [matchCldr, htl, hsc, htt]
        rw [h] at hm
        cases Option.some.inj hm
        rfl
      | none =>
        have hm : matchCldr s = some (lang, some scr, none) := by
          simp [matchCldr, htl, hsc, htt]
        rw [h] at hm
        cases Option.some.inj hm
        rfl
    | none =>
      cases htt : takeTerr r1 with
      | some u =>
        obtain ⟨terr, r3⟩ := u
        have hm : matchCldr s = some (lang, none, some terr) := by
          simp [matchCldr, htl, hsc, htt]
        rw [h] at hm
        cases Option.some.inj hm
        rfl
      | none =>
        have hm : matchCldr s = some (lang, none, none) := by
          simp [matchCldr, htl, hsc, htt]
        rw [h] at hm
        cases Option.some.inj hm
        rfl

theorem matchCldr_group_self (s : List Char)
    (g : List Char × Option (List Char) × Option (List Char)) (h : matchCldr s = some g) :
    g.1 ≠ [] ∧ matchCldr g.1 = some (g.1, none, none) := by
  obtain ⟨r1, htl⟩ := matchCldr_first_component s g h
  rcases takeLang_cases s g.1 r1 htl with ⟨a, b, hEq, ha, hb⟩ | ⟨a, b, c, hEq, ha, hb, hc⟩
  · rw [hEq]
    exact ⟨by simp, matchCldr_two_lower a b ha hb⟩
  · rw [hEq]
    exact ⟨by simp, matchCldr_three_lower a b c ha hb hc⟩

/-! Rewrite rules for `parse_and_split_core`. -/

theorem parse_core_untruthy (l s t : Option String) (h : pyTruthy l = false) :
    parse_and_split_core l s t = (l, s, t) := by
  unfold parse_and_split_core
  rw [h]
  simp

theorem parse_core_nomatch (x : String) (s t : Option String)
    (h : pyTruthy (some x) = true) (hm : matchCldr x.data = none) :
    parse_and_split_core (some x) s t = (some x, s, t) := by
  unfold parse_and_split_core
  rw [h]
  simp [hm]

theorem parse_core_match (x : String) (s t : Option String)
    (g : List Char × Option (List Char) × Option (List Char))
    (h : pyTruthy (some x) = true) (hm : matchCldr x.data = some g) :
    parse_and_split_core (some x) s t =
      (some (String.mk g.1),
       (match g.2.1 with
        | some sc => some (String.mk sc)
        | none => s),
       (match g.2.2 with
        | some tr => some (String.mk tr)
        | none => t)) := by
  unfold parse_and_split_core
  rw [h]
  simp [hm]

theorem pyTruthy_mk (cs : List Char) (h : cs ≠ []) :
    pyTruthy (some (String.mk cs)) = true := by
  cases cs with
  | nil => exact absurd rfl h
  | cons a l => rfl

/-- C6 (counterexample): normalization is not idempotent.  With the
CPython 2.7 iteration order of `_glibc_script_ids`, the first pass
over `"cyrillicatin"` replaces only `cyrillic` (the `latin` pass runs
before the replacement of `cyrillic` creates a new `latin`
occurrence), giving `"Cyrlatin"`; normalizing that output again
replaces the `latin` it contains, giving `"CyrLatn"` -- a different
triple. -/
theorem parse_and_split_not_idempotent :
    parse_and_split_languageId (some "cyrillicatin") none none =
      (some "Cyrlatin", none, none) ∧
    parse_and_split_languageId (some "Cyrlatin") none none =
      (some "CyrLatn", none, none) ∧
    ¬((some "CyrLatn" : Option String) = some "Cyrlatin") := by
  refine ⟨by decide, by decide, by decide⟩

/-- C6 (amended): normalization is idempotent on every triple whose
first-normalization output has language and script fields free of the
glibc alias keys (`latin`, `iqtelif`, `cyrillic`, `devanagari`) as
substrings; re-normalizing such an output returns it unchanged. -/
theorem parse_and_split_idempotent_when_no_alias
    (l s t l' s' t' : Option String)
    (h : parse_and_split_languageId l s t = (l', s', t'))
    (hl : hasAliasKey l' = false) (hs : hasAliasKey s' = false) :
    parse_and_split_languageId l' s' t' = (l', s', t') := by
  unfold parse_and_split_languageId at h ⊢
  rw [glibcSubs_opt_id l' hl, glibcSubs_opt_id s' hs]
  cases hl1 : l.map glibcSubs with
  | none =>
    rw [hl1] at h
    rw [parse_core_untruthy none (s.map glibcSubs) t rfl] at h
    rw [Prod.ext_iff] at h
    obtain ⟨h1, h23⟩ := h
    rw [Prod.ext_iff] at h23
    obtain ⟨h2, h3⟩ := h23
    subst h1
    subst h2
    subst h3
    exact parse_core_untruthy none _ _ rfl
  | some y =>
    by_cases htr : pyTruthy (some y) = true
    · cases hm : matchCldr y.data with
      | none =>
        rw [hl1, parse_core_nomatch y _ _ htr hm] at h
        rw [Prod.ext_iff] at h
        obtain ⟨h1, h23⟩ := h
        rw [Prod.ext_iff] at h23
        obtain ⟨h2, h3⟩ := h23
        subst h1
        subst h2
        subst h3
        exact parse_core_nomatch y _ _ htr hm
      | some g =>
        rw [hl1, parse_core_match y _ _ g htr hm] at h
        rw [Prod.ext_iff] at h
        obtain ⟨h1, h23⟩ := h
        rw [Prod.ext_iff] at h23
        obtain ⟨h2, h3⟩ := h23
        subst h1
        subst h2
        subst h3
        obtain ⟨hne, hself⟩ := matchCldr_group_self y.data g hm
        rw [parse_core_match (String.mk g.1) _ _ (g.1, none, none)
          (pyTruthy_mk g.1 hne) hself]
    · have htr' : pyTruthy (some y) = false := by
        simpa using htr
      rw [hl1, parse_core_untruthy _ _ _ htr'] at h
      rw [Prod.ext_iff] at h
      obtain ⟨h1, h23⟩ := h
      rw [Prod.ext_iff] at h23
      obtain ⟨h2, h3⟩ := h23
      subst h1
      subst h2
      subst h3
      exact parse_core_untruthy _ _ _ htr'

theorem parse_and_split_idempotent_when_no_alias_witness :
    parse_and_split_languageId (some "sr_latin_RS") none none =
      (some "sr", some "Latn", some "RS") ∧
    hasAliasKey (some "sr") = false ∧
    hasAliasKey (some "Latn") = false ∧
    parse_and_split_languageId (some "sr") (some "Latn") (some "RS") =
      (some "sr", some "Latn", some "RS") := by
  refine ⟨by decide, by decide, by decide, ?_⟩
  exact parse_and_split_idempotent_when_no_alias
    (some "sr_latin_RS") none none (some "sr") (some "Latn") (some "RS")
    (by decide) (by decide) (by decide)

/-! ## Structure of successful matches -/

theorem takeLang_append (s lang r1 : List Char) (h : takeLang s = some (lang, r1)) :
    s = lang ++ r1 := by
  match s with
  | [] => simp [takeLang] at h
  | a :: [] => simp [takeLang] at h
  | a :: b :: [] =>
    simp only [takeLang] at h
    by_cases hab : (isLowerAZ a && isLowerAZ b) = true
    · rw [if_pos hab] at h
      simp only [Option.some.injEq, Prod.mk.injEq] at h
      rw [← h.1, ← h.2]
      rfl
    · rw [if_neg hab] at h
      simp at h
  | a :: b :: c :: rest =>
    simp only [takeLang] at h
    by_cases h3 : (isLowerAZ a && isLowerAZ b && isLowerAZ c && langLookaheadOk rest) = true
    · rw [if_pos h3] at h
      simp only [Option.some.injEq, Prod.mk.injEq] at h
      rw [← h.1, ← h.2]
      rfl
    · rw [if_neg h3] at h
      by_cases h2 : (isLowerAZ a && isLowerAZ b && langLookaheadOk (c :: rest)) = true
      · rw [if_pos h2] at h
        simp only [Option.some.injEq, Prod.mk.injEq] at h
        rw [← h.1, ← h.2]
        rfl
      · rw [if_neg h2] at h
        simp at h

theorem takeScript_parts (r1 scr r2 : List Char) (h : takeScript r1 = some (scr, r2)) :
    ∃ c d e f, scr = c :: d :: e :: f :: [] ∧ r1 = '_' :: c :: d :: e :: f :: r2 ∧
      isUpperAZ c = true ∧ isLowerAZ d = true ∧ isLowerAZ e = true ∧ isLowerAZ f = true ∧
      afterScriptOk r2 = true := by
  unfold takeScript at h
  split at h
  · rename_i c d e f rest
    by_cases hc : (isUpperAZ c && isLowerAZ d && isLowerAZ e && isLowerAZ f &&
        afterScriptOk rest) = true
    · rw [if_pos hc] at h
      simp only [Option.some.injEq, Prod.mk.injEq] at h
      obtain ⟨h1, h2⟩ := h
      subst h2
      rcases Bool.and_eq_true_iff.mp hc with ⟨hc1, h5⟩
      rcases Bool.and_eq_true_iff.mp hc1 with ⟨hc2, h4⟩
      rcases Bool.and_eq_true_iff.mp hc2 with ⟨hc3, h3⟩
      rcases Bool.and_eq_true_iff.mp hc3 with ⟨hu, h2⟩
      exact ⟨c, d, e, f, h1.symm, rfl, hu, h2, h3, h4, h5⟩
    · rw [if_neg hc] at h
      simp at h
  · simp at h

theorem takeTerr_parts (r2 tr r3 : List Char) (h : takeTerr r2 = some (tr, r3)) :
    ∃ c d, tr = c :: d :: [] ∧ r2 = '_' :: c :: d :: r3 ∧
      isUpperAZ c = true ∧ isUpperAZ d = true ∧ endOrAt r3 = true := by
  unfold takeTerr at h
  split at h
  · rename_i c d rest
    by_cases hc : (isUpperAZ c && isUpperAZ d && endOrAt rest) = true
    · rw [if_pos hc] at h
      simp only [Option.some.injEq, Prod.mk.injEq] at h
      obtain ⟨h1, h2⟩ := h
      subst h2
      rcases Bool.and_eq_true_iff.mp hc with ⟨hc1, h3⟩
      rcases Bool.and_eq_true_iff.mp hc1 with ⟨hu, h2⟩
      exact ⟨c, d, h1.symm, rfl, hu, h2, h3⟩
    · rw [if_neg hc] at h
      simp at h
  · simp at h

theorem matchCldr_terr_shape (s lang : List Char) (scr : Option (List Char))
    (tr : List Char) (h : matchCldr s = some (lang, scr, some tr)) :
    ∃ scrPart r3,
      s = lang ++ scrPart ++ '_' :: (tr ++ r3) ∧
      ((scrPart = [] ∧ scr = none) ∨
       (∃ c d e f, scr = some (c :: d :: e :: f :: []) ∧
         scrPart = '_' :: c :: d :: e :: f :: [] ∧
         isUpperAZ c = true ∧ isLowerAZ d = true ∧ isLowerAZ e = true ∧ isLowerAZ f = true)) ∧
      (∃ T1 T2, tr = T1 :: T2 :: [] ∧ isUpperAZ T1 = true ∧ isUpperAZ T2 = true) ∧
      endOrAt r3 = true ∧
      ((∃ a b, lang = a :: b :: [] ∧ isLowerAZ a = true ∧ isLowerAZ b = true) ∨
       (∃ a b c, lang = a :: b :: c :: [] ∧
         isLowerAZ a = true ∧ isLowerAZ b = true ∧ isLowerAZ c = true)) := by
  cases htl : takeLang s with
  | none =>
    unfold matchCldr at h
    rw [htl] at h
    simp at h
  | some p =>
    obtain ⟨lang0, r1⟩ := p
    have hlangshape := takeLang_cases s lang0 r1 htl
    have happend := takeLang_append s lang0 r1 htl
    cases hsc : takeScript r1 with
    | some q =>
      obtain ⟨scr0, r2⟩ := q
      cases htt : takeTerr r2 with
      | some u =>
        obtain ⟨tr0, r3⟩ := u
        have hm : matchCldr s = some (lang0, some scr0, some tr0) := by
          simp [matchCldr, htl, hsc, htt]
        rw [h] at hm
        cases Option.some.inj hm
        obtain ⟨c, d, e, f, hscr, hr1, hc, hd, he, hf, _⟩ :=
          takeScript_parts r1 scr0 r2 hsc
        obtain ⟨T1, T2, htr, hr2, hT1, hT2, hend⟩ := takeTerr_parts r2 tr r3 htt
        refine ⟨'_' :: c :: d :: e :: f :: [], r3, ?_,
          Or.inr ⟨c, d, e, f, by rw [hscr], rfl, hc, hd, he, hf⟩,
          ⟨T1, T2, htr, hT1, hT2⟩, hend, hlangshape⟩
        rw [happend, hr1, hr2, htr]
        simp
      | none =>
        have hm : matchCldr s = some (lang0, some scr0, none) := by
          simp [matchCldr, htl, hsc, htt]
        rw [h] at hm
        simp at hm
    | none =>
      cases htt : takeTerr r1 with
      | some u =>
        obtain ⟨tr0, r3⟩ := u
        have hm : matchCldr s = some (lang0, none, some tr0) := by
          simp [matchCldr, htl, hsc, htt]
        rw [h] at hm
        cases Option.some.inj hm
        obtain ⟨T1, T2, htr, hr1, hT1, hT2, hend⟩ := takeTerr_parts r1 tr r3 htt
        refine ⟨[], r3, ?_, Or.inl ⟨rfl, rfl⟩, ⟨T1, T2, htr, hT1, hT2⟩, hend, hlangshape⟩
        rw [happend, hr1, htr]
        simp
      | none =>
        have hm : matchCldr s = some (lang0, none, none) := by
          simp [matchCldr, htl, hsc, htt]
        rw [h] at hm
        simp at hm

theorem matchCldr_terr_length (s lang : List Char) (scr : Option (List Char))
    (tr : List Char) (h : matchCldr s = some (lang, scr, some tr)) :
    lang.length + 3 ≤ s.length := by
  obtain ⟨scrPart, r3, hEq, _, ⟨T1, T2, htr, _, _⟩, _, _⟩ :=
    matchCldr_terr_shape s lang scr tr h
  rw [hEq, htr]
  simp [List.length_append]
  omega

theorem replaceAllGo_length_le (pat rep : List Char) (hlen : rep.length ≤ pat.length) :
    ∀ f s, s.length ≤ f → (replaceAllGo pat rep f s).length ≤ s.length := by
  intro f
  induction f with
  | zero =>
    intro s hf
    have : s = [] := List.eq_nil_of_length_eq_zero (Nat.le_zero.mp hf)
    subst this
    simp [replaceAllGo]
  | succ f ih =>
    intro s hf
    cases s with
    | nil => simp [replaceAllGo]
    | cons c t =>
      simp only [replaceAllGo]
      by_cases hp : pat.isPrefixOf (c :: t)
      · rw [if_pos hp]
        have hple : pat.length ≤ t.length + 1 :=
          List.IsPrefix.length_le (List.isPrefixOf_iff_prefix.mp hp)
        have hd : (t.drop (pat.length - 1)).length ≤ t.length := by
          simp [List.length_drop]
        have hdl : (t.drop (pat.length - 1)).length = t.length - (pat.length - 1) := by
          simp [List.length_drop]
        simp only [List.length_cons] at hf
        have hrec := ih (t.drop (pat.length - 1)) (by omega)
        simp only [List.length_append, List.length_cons]
        omega
      · rw [if_neg hp]
        simp only [List.length_cons] at hf ⊢
        have hrec := ih t (by omega)
        omega

theorem replaceAll_length_le (pat rep : List Char) (hlen : rep.length ≤ pat.length)
    (s : List Char) : (replaceAll pat rep s).length ≤ s.length :=
  replaceAllGo_length_le pat rep hlen s.length s le_rfl

theorem glibcSubsList_length_le (s : List Char) : (glibcSubsList s).length ≤ s.length := by
  unfold glibcSubsList
  calc (replaceAll cyrillicKey cyrlRep _).length
      ≤ (replaceAll latinKey latnRep
          (replaceAll iqtelifKey latnRep (replaceAll devanagariKey devaRep s))).length :=
        replaceAll_length_le _ _ (by decide) _
    _ ≤ (replaceAll iqtelifKey latnRep (replaceAll devanagariKey devaRep s)).length :=
        replaceAll_length_le _ _ (by decide) _
    _ ≤ (replaceAll devanagariKey devaRep s).length :=
        replaceAll_length_le _ _ (by decide) _
    _ ≤ s.length := replaceAll_length_le _ _ (by decide) _

theorem pyTruthy_some_of_ne (s : String) (h : s ≠ "") : pyTruthy (some s) = true := by
  cases hs : s.data with
  | nil =>
    have : s = "" := by
      rw [← show String.mk s.data = s from rfl, hs]
    exact absurd this h
  | cons a l => simp [pyTruthy, hs]

/-- The recursive call of `language_name` omits script and territory;
under any fixed-point subject the re-parse of the bare language yields
no territory. -/
theorem parse_fix_inner_no_terr (l : String) (t : Option String)
    (hfix : parse_and_split_languageId (some l) none t = (some l, none, t)) :
    (parse_and_split_languageId (some l) none none).2.2 = none := by
  unfold parse_and_split_languageId at hfix ⊢
  by_cases htr : pyTruthy (some (glibcSubs l)) = true
  · cases hm : matchCldr (glibcSubs l).data with
    | none =>
      show (parse_and_split_core (some (glibcSubs l)) none none).2.2 = none
      rw [parse_core_nomatch _ _ _ htr hm]
    | some g =>
      cases hg : g.2.2 with
      | some tr =>
        exfalso
        have hfix' : parse_and_split_core (some (glibcSubs l)) none t =
            (some l, none, t) := hfix
        rw [parse_core_match _ _ _ g htr hm] at hfix'
        have h1 : String.mk g.1 = l := by
          have := congrArg (fun p => p.1) hfix'
          simpa using this
        have hm' : matchCldr (glibcSubs l).data = some (g.1, g.2.1, some tr) :=
          hm.trans (by rw [← hg])
        have hlen1 := matchCldr_terr_length (glibcSubs l).data g.1 g.2.1 tr hm'
        have hlen2 : (glibcSubs l).data.length ≤ l.data.length :=
          glibcSubsList_length_le l.data
        have h3 : l.data = g.1 := by rw [← h1]
        rw [h3] at hlen2
        omega
      | none =>
        show (parse_and_split_core (some (glibcSubs l)) none none).2.2 = none
        rw [parse_core_match _ _ _ g htr hm]
        simp [hg]
  · have htr' : pyTruthy (some (glibcSubs l)) = false := by simpa using htr
    show (parse_and_split_core (some (glibcSubs l)) none none).2.2 = none
    rw [parse_core_untruthy _ _ _ htr']

theorem languageNameFuel_succ_no_terr (db : Databases) (n m : Nat)
    (a b c q1 q2 q3 : Option String)
    (h : (parse_and_split_languageId a b c).2.2 = none) :
    languageNameFuel db (n + 1) a b c q1 q2 q3 =
      languageNameFuel db (m + 1) a b c q1 q2 q3 := by
  rw [languageNameFuel_succ, languageNameFuel_succ]
  simp only [languageNameBody]
  rw [h]
  simp [pyTruthy]

/-- C7: for a normalized `(language, territory)` subject (no script)
where the `language_territory` compound key is absent from the
Language table, the bare language key is present, a territory was
supplied, and the recursive `language_name(language, query)` and
`territory_name(territory, query)` calls (against the normalized,
endonym-defaulted query triple) both return non-empty strings,
`language_name` returns `"<language name> (<territory name>)"`. -/
theorem language_name_synthesizes_lang_terr (db : Databases) (l t : String)
    (ql0 qs0 qt0 ql qs qt : Option String) (lname cname : String)
    (hl : l ≠ "") (ht : t ≠ "")
    (hfix : parse_and_split_languageId (some l) none (some t) = (some l, none, some t))
    (habs : dictGet? db.languages (l ++ "_" ++ t) = none)
    (hbare : (dictGet? db.languages l).isSome = true)
    (hq : (if pyTruthy (parse_and_split_languageId ql0 qs0 qt0).1 then
             (parse_and_split_languageId ql0 qs0 qt0).1 else some l) = ql)
    (hq2 : (if pyTruthy (parse_and_split_languageId ql0 qs0 qt0).1 then
              (parse_and_split_languageId ql0 qs0 qt0).2.1 else none) = qs)
    (hq3 : (if pyTruthy (parse_and_split_languageId ql0 qs0 qt0).1 then
              (parse_and_split_languageId ql0 qs0 qt0).2.2 else some t) = qt)
    (hlname : language_name db (some l) none none ql qs qt = lname)
    (hlname_ne : lname ≠ "")
    (hcname : territory_name db (some t) ql qs qt = cname)
    (hcname_ne : cname ≠ "") :
    language_name db (some l) none (some t) ql0 qs0 qt0 =
      lname ++ " (" ++ cname ++ ")" := by
  have hinner : languageNameFuel db 1 (some l) none none ql qs qt = lname := by
    rw [languageNameFuel_succ_no_terr db 0 1 (some l) none none ql qs qt
      (parse_fix_inner_no_terr l (some t) hfix)]
    exact hlname
  unfold language_name
  rw [languageNameFuel_succ db 1]
  simp only [languageNameBody]
  rw [hfix]
  simp only [hq, hq2, hq3]
  have hcat : catOpt2 (some l) (some t) = some (l ++ "_" ++ t) := rfl
  simp only [pyTruthy_some_of_ne l hl, pyTruthy_some_of_ne t ht, pyTruthy,
    Bool.and_true, Bool.and_false, Bool.true_and, Bool.false_and, hcat,
    lookupOpt, habs, hinner, hcname]
  have hld : ¬l.data = [] := by
    intro hd
    exact hl (by rw [← show String.mk l.data = l from rfl, hd])
  have htd : ¬t.data = [] := by
    intro hd
    exact ht (by rw [← show String.mk t.data = t from rfl, hd])
  simp [firstSome, hlname_ne, hcname_ne, hld, htd]

def exdbC7 : Databases :=
  { languages := ("de", { names := ("de", "Deutsch") :: [] }) :: [],
    territories := ("CH", { names := ("de", "Schweiz") :: [] }) :: [] }

theorem language_name_synthesizes_lang_terr_witness :
    language_name exdbC7 (some "de") none (some "CH") (some "de") none none =
      "Deutsch (Schweiz)" :=
  language_name_synthesizes_lang_terr exdbC7 "de" "CH" (some "de") none none
    (some "de") none none "Deutsch" "Schweiz"
    (by decide) (by decide) (by decide) rfl rfl
    (by decide) (by decide) (by decide) (by decide) (by decide) (by decide) (by decide)

/-! ## Character-class facts -/

theorem upper_not_lower (c : Char) (h : isUpperAZ c = true) : isLowerAZ c = false := by
  simp only [isUpperAZ, Bool.and_eq_true, decide_eq_true_eq] at h
  simp only [isLowerAZ, Bool.and_eq_false_iff, decide_eq_false_iff_not]
  left
  omega

theorem lower_not_upper (c : Char) (h : isLowerAZ c = true) : isUpperAZ c = false := by
  simp only [isLowerAZ, Bool.and_eq_true, decide_eq_true_eq] at h
  simp only [isUpperAZ, Bool.and_eq_false_iff, decide_eq_false_iff_not]
  right
  omega

theorem lower_ne_at (c : Char) (h : isLowerAZ c = true) : ¬c = '@' := by
  intro hc
  subst hc
  simp [isLowerAZ] at h

theorem upper_ne_at (c : Char) (h : isUpperAZ c = true) : ¬c = '@' := by
  intro hc
  subst hc
  simp [isUpperAZ] at h

theorem lower_ne_us (c : Char) (h : isLowerAZ c = true) : ¬c = '_' := by
  intro hc
  subst hc
  simp [isLowerAZ] at h

/-! ## Occurrence infrastructure -/

theorem containsSub_nil (pat : List Char) (h : pat ≠ []) : containsSub pat [] = false := by
  cases pat with
  | nil => exact absurd rfl h
  | cons c s => rfl

theorem containsSub_cons_of (pat : List Char) (c : Char) (s : List Char)
    (h : containsSub pat s = true) : containsSub pat (c :: s) = true := by
  simp [containsSub, h]

theorem containsSub_append_right (pat x y : List Char)
    (h : containsSub pat y = true) : containsSub pat (x ++ y) = true := by
  induction x with
  | nil => simpa using h
  | cons c x' ih => exact containsSub_cons_of pat c _ ih

theorem containsSub_of_leading (pat s : List Char) (hne : pat ≠ []) (h : pat <+: s) :
    containsSub pat s = true := by
  cases s with
  | nil =>
    have := List.IsPrefix.length_le h
    cases pat with
    | nil => exact absurd rfl hne
    | cons p ps => simp at this
  | cons c t =>
    simp [containsSub, List.isPrefixOf_iff_prefix, h]

theorem containsSub_decomp (pat A B : List Char) (hne : pat ≠ []) :
    containsSub pat (A ++ pat ++ B) = true := by
  induction A with
  | nil =>
    simp only [List.nil_append]
    exact containsSub_of_leading pat (pat ++ B) hne (List.prefix_append pat B)
  | cons c A' ih => exact containsSub_cons_of pat c _ ih

theorem containsSub_suffix (pat t s : List Char) (hsuf : t <:+ s)
    (h : containsSub pat t = true) : containsSub pat s = true := by
  obtain ⟨x, rfl⟩ := hsuf
  exact containsSub_append_right pat x t h

theorem length_le_of_containsSub (pat : List Char) :
    ∀ s, containsSub pat s = true → pat.length ≤ s.length := by
  intro s
  induction s with
  | nil =>
    intro h
    cases pat with
    | nil => simp
    | cons p ps => simp [containsSub] at h
  | cons c t ih =>
    intro h
    simp only [containsSub, Bool.or_eq_true] at h
    rcases h with h | h
    · exact List.IsPrefix.length_le (List.isPrefixOf_iff_prefix.mp h)
    · have := ih h
      simp only [List.length_cons]
      omega

theorem prefix_append_cases (p X y : List Char) (h : p <+: X ++ y) :
    p <+: X ∨ ∃ w, p = X ++ w ∧ w <+: y := by
  induction X generalizing p with
  | nil =>
    right
    exact ⟨p, rfl, by simpa using h⟩
  | cons c X' ih =>
    cases p with
    | nil => exact Or.inl List.nil_prefix
    | cons q p' =>
      obtain ⟨r, hr⟩ := h
      simp only [List.cons_append] at hr
      obtain ⟨hq, hr'⟩ := List.cons.inj hr
      subst hq
      rcases ih p' ⟨r, hr'⟩ with h' | ⟨w, hw1, hw2⟩
      · exact Or.inl (by
          obtain ⟨r', hr''⟩ := h'
          exact ⟨r', by rw [List.cons_append, hr'']⟩)
      · exact Or.inr ⟨w, by rw [hw1, List.cons_append], hw2⟩

theorem containsSub_append_split (pat x y : List Char) (hne : pat ≠ [])
    (h : containsSub pat (x ++ y) = true) :
    containsSub pat x = true ∨ containsSub pat y = true ∨
    ∃ u w, pat = u ++ w ∧ u ≠ [] ∧ w ≠ [] ∧ u <:+ x ∧ w <+: y := by
  induction x with
  | nil =>
    right
    left
    simpa using h
  | cons c x' ih =>
    simp only [List.cons_append, containsSub, Bool.or_eq_true] at h
    rcases h with h | h
    · -- pat is a prefix of c :: (x' ++ y) = (c :: x') ++ y
      have hpre : pat <+: (c :: x') ++ y := by
        simpa using List.isPrefixOf_iff_prefix.mp h
      rcases prefix_append_cases pat (c :: x') y hpre with h' | ⟨w, hw1, hw2⟩
      · exact Or.inl (containsSub_of_leading pat (c :: x') hne h')
      · cases hwnil : w with
        | nil =>
          subst hwnil
          rw [List.append_nil] at hw1
          exact Or.inl (containsSub_of_leading pat (c :: x') hne (hw1 ▸ List.prefix_refl _))
        | cons w0 w' =>
          refine Or.inr (Or.inr ⟨c :: x', w, hw1, by simp, by simp [hwnil], List.suffix_refl _, hw2⟩)
    · rcases ih h with h' | h' | ⟨u, w, h1, h2, h3, h4, h5⟩
      · exact Or.inl (containsSub_cons_of pat c x' h')
      · exact Or.inr (Or.inl h')
      · exact Or.inr (Or.inr ⟨u, w, h1, h2, h3,
          h4.trans (List.suffix_cons c x'), h5⟩)

/-! ## No alias key survives the substitution chain -/

theorem lowercase_prefix_replaceAllGo (pat : List Char) (r0 : Char) (rs : List Char)
    (hr : isLowerAZ r0 = false) :
    ∀ f s w, s.length ≤ f → (∀ ch ∈ w, isLowerAZ ch = true) →
      w <+: replaceAllGo pat (r0 :: rs) f s → w <+: s := by
  intro f
  induction f with
  | zero =>
    intro s w hf _ hw
    have : s = [] := List.eq_nil_of_length_eq_zero (Nat.le_zero.mp hf)
    subst this
    simpa [replaceAllGo] using hw
  | succ f ih =>
    intro s w hf hlow hw
    cases s with
    | nil => simpa [replaceAllGo] using hw
    | cons c t =>
      simp only [replaceAllGo] at hw
      by_cases hp : pat.isPrefixOf (c :: t)
      · rw [if_pos hp] at hw
        cases w with
        | nil => exact List.nil_prefix
        | cons w0 w' =>
          obtain ⟨r, hr'⟩ := hw
          simp only [List.cons_append] at hr'
          obtain ⟨hq, _⟩ := List.cons.inj hr'
          have : isLowerAZ w0 = true := hlow w0 (by simp)
          rw [hq] at this
          rw [this] at hr
          simp at hr
      · rw [if_neg hp] at hw
        cases w with
        | nil => exact List.nil_prefix
        | cons w0 w' =>
          obtain ⟨r, hr'⟩ := hw
          obtain ⟨hq, hr''⟩ := List.cons.inj hr'
          subst hq
          simp only [List.length_cons] at hf
          have := ih t w' (by omega) (fun ch hch => hlow ch (by simp [hch])) ⟨r, hr''⟩
          obtain ⟨r', hrr⟩ := this
          exact ⟨r', by rw [List.cons_append, hrr]⟩

theorem lowercase_prefix_replaceAll (pat : List Char) (r0 : Char) (rs : List Char)
    (hr : isLowerAZ r0 = false) (s w : List Char)
    (hlow : ∀ ch ∈ w, isLowerAZ ch = true)
    (hw : w <+: replaceAll pat (r0 :: rs) s) : w <+: s :=
  lowercase_prefix_replaceAllGo pat r0 rs hr s.length s w le_rfl hlow hw

theorem replaceAll_eliminates (pat : List Char) (r0 : Char) (rs : List Char)
    (hpat2 : 2 ≤ pat.length)
    (hlow : ∀ ch ∈ pat, isLowerAZ ch = true)
    (hr0 : isLowerAZ r0 = false)
    (hnc : containsSub pat (r0 :: rs) = false)
    (hsp : ∀ u ∈ (r0 :: rs).tails, u = [] ∨ ¬u <+: pat) :
    ∀ s, containsSub pat (replaceAll pat (r0 :: rs) s) = false := by
  have hne : pat ≠ [] := by
    cases pat
    · simp at hpat2
    · simp
  suffices hgo : ∀ f s, s.length ≤ f →
      containsSub pat (replaceAllGo pat (r0 :: rs) f s) = false by
    intro s
    exact hgo s.length s le_rfl
  intro f
  induction f with
  | zero =>
    intro s hf
    have : s = [] := List.eq_nil_of_length_eq_zero (Nat.le_zero.mp hf)
    subst this
    exact containsSub_nil pat hne
  | succ f ih =>
    intro s hf
    cases s with
    | nil => exact containsSub_nil pat hne
    | cons c t =>
      simp only [replaceAllGo]
      by_cases hp : pat.isPrefixOf (c :: t)
      · rw [if_pos hp]
        by_contra hcon
        rw [Bool.not_eq_false] at hcon
        rcases containsSub_append_split pat (r0 :: rs) _ hne
            (by simpa using hcon) with h | h | ⟨u, w, h1, h2, h3, h4, h5⟩
        · rw [h] at hnc
          simp at hnc
        · simp only [List.length_cons] at hf
          have hle : (t.drop (pat.length - 1)).length ≤ f := by
            simp only [List.length_drop]
            omega
          rw [ih _ hle] at h
          simp at h
        · rcases hsp u ((List.mem_tails u (r0 :: rs)).mpr h4) with h' | h'
          · exact h2 h'
          · exact h' ⟨w, h1.symm⟩
      · rw [if_neg hp]
        simp only [containsSub, Bool.or_eq_false_iff]
        constructor
        · by_contra hcon
          rw [Bool.not_eq_false] at hcon
          have hpre : pat <+: c :: replaceAllGo pat (r0 :: rs) f t :=
            List.isPrefixOf_iff_prefix.mp hcon
          cases hpat : pat with
          | nil => exact hne hpat
          | cons p0 ps =>
            subst hpat
            obtain ⟨r, hr'⟩ := hpre
            simp only [List.cons_append] at hr'
            obtain ⟨hq, hr''⟩ := List.cons.inj hr'
            subst hq
            have hps_low : ∀ ch ∈ ps, isLowerAZ ch = true := by
              intro ch hch
              exact hlow ch (by simp [hch])
            simp only [List.length_cons] at hf
            have hps_pre : ps <+: t :=
              lowercase_prefix_replaceAllGo (p0 :: ps) r0 rs hr0 f t ps (by omega)
                hps_low ⟨r, hr''⟩
            have hfin : (p0 :: ps).isPrefixOf (p0 :: t) = true := by
              apply List.isPrefixOf_iff_prefix.mpr
              obtain ⟨r', hrr⟩ := hps_pre
              exact ⟨r', by rw [List.cons_append, hrr]⟩
            exact hp hfin
        · simp only [List.length_cons] at hf
          exact ih t (by omega)

theorem append_factor_cases (blk R u pat v : List Char)
    (h : blk ++ R = u ++ pat ++ v) :
    (∃ u2, u = blk ++ u2 ∧ R = u2 ++ pat ++ v) ∨
    (∃ w, blk = u ++ w ∧ w ≠ [] ∧ w <+: pat) ∨
    (∃ t2, blk = u ++ pat ++ t2) := by
  rw [List.append_assoc] at h
  rcases List.append_eq_append_iff.mp h with ⟨a', ha1, ha2⟩ | ⟨c', hc1, hc2⟩
  · exact Or.inl ⟨a', ha1, by rw [ha2, List.append_assoc]⟩
  · rcases List.append_eq_append_iff.mp hc2.symm with ⟨p', hp1, hp2⟩ | ⟨q, hq1, hq2⟩
    · cases hcnil : c' with
      | nil =>
        subst hcnil
        refine Or.inl ⟨[], by simp [hc1], ?_⟩
        simpa using hc2.symm
      | cons e c'' =>
        exact Or.inr (Or.inl ⟨c', hc1, by simp [hcnil], ⟨p', hp1.symm⟩⟩)
    · exact Or.inr (Or.inr ⟨q, by rw [hc1, hq1, List.append_assoc]⟩)

/-- A pattern absent from `s` stays absent after replacing a
(different) pattern, provided the searched pattern is all-lowercase,
the replacement starts with a non-lowercase character, no nonempty
suffix of the replacement is a prefix of the pattern, and the
replacement itself does not contain the pattern. -/
theorem replaceAll_preserves_not_contains (pat pat' : List Char) (r0 : Char) (rs : List Char)
    (hne : pat ≠ []) (hne' : pat' ≠ [])
    (hlow : ∀ ch ∈ pat, isLowerAZ ch = true)
    (hr0 : isLowerAZ r0 = false)
    (hnc : containsSub pat (r0 :: rs) = false)
    (hsp : ∀ u ∈ (r0 :: rs).tails, u = [] ∨ ¬u <+: pat) :
    ∀ s, containsSub pat s = false →
      containsSub pat (replaceAll pat' (r0 :: rs) s) = false := by
  suffices hgo : ∀ f s, s.length ≤ f → containsSub pat s = false →
      containsSub pat (replaceAllGo pat' (r0 :: rs) f s) = false by
    intro s hs
    exact hgo s.length s le_rfl hs
  intro f
  induction f with
  | zero =>
    intro s hf _
    have : s = [] := List.eq_nil_of_length_eq_zero (Nat.le_zero.mp hf)
    subst this
    exact containsSub_nil pat hne
  | succ f ih =>
    intro s hf hs
    cases s with
    | nil => exact containsSub_nil pat hne
    | cons c t =>
      simp only [replaceAllGo]
      by_cases hp : pat'.isPrefixOf (c :: t)
      · rw [if_pos hp]
        by_contra hcon
        rw [Bool.not_eq_false] at hcon
        rcases containsSub_append_split pat (r0 :: rs) _ hne
            (by simpa using hcon) with h | h | ⟨u, w, h1, h2, h3, h4, h5⟩
        · rw [h] at hnc
          simp at hnc
        · have hdrop : containsSub pat (t.drop (pat'.length - 1)) = false := by
            by_contra hd
            rw [Bool.not_eq_false] at hd
            have : containsSub pat (c :: t) = true :=
              containsSub_suffix pat _ _
                ((List.drop_suffix _ t).trans (List.suffix_cons c t)) hd
            rw [this] at hs
            simp at hs
          simp only [List.length_cons] at hf
          have hle : (t.drop (pat'.length - 1)).length ≤ f := by
            simp only [List.length_drop]
            omega
          rw [ih _ hle hdrop] at h
          simp at h
        · rcases hsp u ((List.mem_tails u (r0 :: rs)).mpr h4) with h' | h'
          · exact h2 h'
          · exact h' ⟨w, h1.symm⟩
      · rw [if_neg hp]
        have hstail : containsSub pat t = false := by
          have := hs
          simp only [containsSub, Bool.or_eq_false_iff] at this
          exact this.2
        simp only [containsSub, Bool.or_eq_false_iff]
        refine ⟨?_, by simp only [List.length_cons] at hf; exact ih t (by omega) hstail⟩
        by_contra hcon
        rw [Bool.not_eq_false] at hcon
        have hpre : pat <+: c :: replaceAllGo pat' (r0 :: rs) f t :=
          List.isPrefixOf_iff_prefix.mp hcon
        cases hpat : pat with
        | nil => exact hne hpat
        | cons p0 ps =>
          subst hpat
          obtain ⟨r, hr'⟩ := hpre
          simp only [List.cons_append] at hr'
          obtain ⟨hq, hr''⟩ := List.cons.inj hr'
          subst hq
          have hps_low : ∀ ch ∈ ps, isLowerAZ ch = true := by
            intro ch hch
            exact hlow ch (by simp [hch])
          simp only [List.length_cons] at hf
          have hps_pre : ps <+: t :=
            lowercase_prefix_replaceAllGo pat' r0 rs hr0 f t ps (by omega)
              hps_low ⟨r, hr''⟩
          have hocc : containsSub (p0 :: ps) (p0 :: t) = true := by
            apply containsSub_of_leading _ _ (by simp)
            obtain ⟨r', hrr⟩ := hps_pre
            exact ⟨r', by rw [List.cons_append, hrr]⟩
          rw [hocc] at hs
          simp at hs

/-- Every occurrence of `latin` in the output of the `cyrillic → Cyrl`
pass over a `latin`-free string is immediately preceded by the `r` of
an inserted `Cyrl`. -/
theorem latin_after_cyr_preceded :
    ∀ f s, s.length ≤ f → containsSub latinKey s = false →
    ∀ u v, replaceAllGo cyrillicKey cyrlRep f s = u ++ latinKey ++ v →
      ∃ u', u = u' ++ ('r' :: []) := by
  intro f
  induction f with
  | zero =>
    intro s hf _ u v hEq
    have : s = [] := List.eq_nil_of_length_eq_zero (Nat.le_zero.mp hf)
    subst this
    have := congrArg List.length hEq
    simp [replaceAllGo, latinKey] at this
    exact absurd this (by omega)
  | succ f ih =>
    intro s hf hs u v hEq
    cases s with
    | nil =>
      have := congrArg List.length hEq
      simp [replaceAllGo, latinKey] at this
      exact absurd this (by omega)
    | cons c t =>
      simp only [replaceAllGo] at hEq
      by_cases hp : cyrillicKey.isPrefixOf (c :: t)
      · rw [if_pos hp] at hEq
        rcases append_factor_cases cyrlRep _ u latinKey v hEq with
          ⟨u2, hu, hR⟩ | ⟨w, hblk, hwne, hwpre⟩ | ⟨t2, hblk⟩
        · have hdrop : containsSub latinKey (t.drop (cyrillicKey.length - 1)) = false := by
            by_contra hd
            rw [Bool.not_eq_false] at hd
            have : containsSub latinKey (c :: t) = true :=
              containsSub_suffix _ _ _
                ((List.drop_suffix _ t).trans (List.suffix_cons c t)) hd
            rw [this] at hs
            simp at hs
          simp only [List.length_cons] at hf
          obtain ⟨u3, hu3⟩ := ih (t.drop (cyrillicKey.length - 1))
            (by simp only [List.length_drop]; omega) hdrop u2 v hR
          exact ⟨cyrlRep ++ u3, by rw [hu, hu3, List.append_assoc]⟩
        · -- `w` is a nonempty suffix of `Cyrl` that is a prefix of `latin`: w = "l"
          rcases u with _ | ⟨a, u1⟩
          · simp only [List.nil_append] at hblk
            rw [← hblk] at hwpre
            exact absurd hwpre (by decide)
          rcases u1 with _ | ⟨b, u2⟩
          · simp only [cyrlRep, List.cons_append, List.nil_append] at hblk
            obtain ⟨ha, hblk⟩ := List.cons.inj hblk
            rw [← hblk] at hwpre
            exact absurd hwpre (by decide)
          rcases u2 with _ | ⟨c1, u3⟩
          · simp only [cyrlRep, List.cons_append, List.nil_append] at hblk
            obtain ⟨ha, hblk⟩ := List.cons.inj hblk
            obtain ⟨hb, hblk⟩ := List.cons.inj hblk
            rw [← hblk] at hwpre
            exact absurd hwpre (by decide)
          rcases u3 with _ | ⟨d, u4⟩
          · simp only [cyrlRep, List.cons_append, List.nil_append] at hblk
            obtain ⟨ha, hblk⟩ := List.cons.inj hblk
            obtain ⟨hb, hblk⟩ := List.cons.inj hblk
            obtain ⟨hc1, hblk⟩ := List.cons.inj hblk
            subst ha
            subst hb
            subst hc1
            exact ⟨'C' :: 'y' :: [], rfl⟩
          · have hlen := congrArg List.length hblk
            simp only [cyrlRep, List.length_append, List.length_cons, List.length_nil] at hlen
            have hw1 : 1 ≤ w.length := by
              cases w with
              | nil => exact absurd rfl hwne
              | cons _ _ => simp
            omega
        · have := congrArg List.length hblk
          simp [cyrlRep, latinKey] at this
          omega
      · rw [if_neg hp] at hEq
        rcases u with _ | ⟨a, u1⟩
        · -- latin would be a prefix of the output here; pull it back to s
          simp only [List.nil_append, latinKey, List.cons_append] at hEq
          obtain ⟨hc, hEq⟩ := List.cons.inj hEq
          have hpre : ('a' :: 't' :: 'i' :: 'n' :: []) <+:
              replaceAllGo cyrillicKey cyrlRep f t := ⟨v, hEq.symm⟩
          have hpre' : ('a' :: 't' :: 'i' :: 'n' :: []) <+: t := by
            have hcyrl : cyrlRep = 'C' :: ('y' :: 'r' :: 'l' :: []) := rfl
            rw [hcyrl] at hpre
            exact lowercase_prefix_replaceAllGo cyrillicKey 'C' _ (by decide) f t _
              (by simp [List.length_cons] at hf; omega)
              (by intro ch hch; fin_cases hch <;> decide) hpre
          have hocc : containsSub latinKey (c :: t) = true := by
            apply containsSub_of_leading _ _ (by decide)
            obtain ⟨r', hrr⟩ := hpre'
            subst hc
            exact ⟨r', by rw [latinKey]; simp [← hrr]⟩
          rw [hocc] at hs
          simp at hs
        · simp only [List.cons_append] at hEq
          obtain ⟨ha, hEq⟩ := List.cons.inj hEq
          have hstail : containsSub latinKey t = false := by
            have := hs
            simp only [containsSub, Bool.or_eq_false_iff] at this
            exact this.2
          simp only [List.length_cons] at hf
          obtain ⟨u', hu'⟩ := ih t (by omega) hstail u1 v hEq
          exact ⟨a :: u', by rw [hu', List.cons_append]⟩

/-- Decomposition at the first replaced occurrence: if `pat` occurs in
`s`, then `s = u ++ pat ++ v` with
`replaceAll pat rep s = u ++ rep ++ replaceAll pat rep v`. -/
theorem replaceAll_first_occ (pat rep : List Char) (hne : pat ≠ []) :
    ∀ s, containsSub pat s = true →
      ∃ u v, s = u ++ pat ++ v ∧
        replaceAll pat rep s = u ++ rep ++ replaceAll pat rep v := by
  suffices hgo : ∀ f s, s.length ≤ f → containsSub pat s = true →
      ∃ u v, s = u ++ pat ++ v ∧
        replaceAllGo pat rep f s = u ++ rep ++ replaceAll pat rep v by
    intro s hs
    exact hgo s.length s le_rfl hs
  intro f
  induction f with
  | zero =>
    intro s hf hs
    have : s = [] := List.eq_nil_of_length_eq_zero (Nat.le_zero.mp hf)
    subst this
    rw [containsSub_nil pat hne] at hs
    simp at hs
  | succ f ih =>
    intro s hf hs
    cases s with
    | nil =>
      rw [containsSub_nil pat hne] at hs
      simp at hs
    | cons c t =>
      simp only [replaceAllGo]
      by_cases hp : pat.isPrefixOf (c :: t)
      · rw [if_pos hp]
        obtain ⟨w, hw⟩ := List.isPrefixOf_iff_prefix.mp hp
        have hdrop : t.drop (pat.length - 1) = w := by
          have h1 : (c :: t).drop pat.length = w := by
            rw [← hw, List.drop_left]
          cases hpc : pat with
          | nil => exact absurd hpc hne
          | cons p0 ps =>
            rw [hpc] at h1
            simpa using h1
        refine ⟨[], w, by simp [← hw], ?_⟩
        rw [hdrop]
        simp only [List.nil_append]
        congr 1
        apply replaceAllGo_fuel
        · have hlw := congrArg List.length hw
          have hp1 : 1 ≤ pat.length := by
            cases pat with
            | nil => exact absurd rfl hne
            | cons _ _ => simp
          simp only [List.length_append, List.length_cons] at hlw hf
          omega
        · exact le_rfl
      · rw [if_neg hp]
        have hst : containsSub pat t = true := by
          simp only [containsSub, Bool.or_eq_true] at hs
          rcases hs with h | h
          · exact absurd h hp
          · exact h
        simp only [List.length_cons] at hf
        obtain ⟨u, v, ht, hout⟩ := ih t (by omega) hst
        exact ⟨c :: u, v, by rw [ht]; simp, by
          rw [hout]; simp⟩

theorem glibc_no_dev (A : List Char) :
    containsSub devanagariKey (glibcSubsList A) = false := by
  show containsSub devanagariKey
    (replaceAll cyrillicKey ('C' :: ('y' :: 'r' :: 'l' :: []))
      (replaceAll latinKey ('L' :: ('a' :: 't' :: 'n' :: []))
        (replaceAll iqtelifKey ('L' :: ('a' :: 't' :: 'n' :: []))
          (replaceAll devanagariKey ('D' :: ('e' :: 'v' :: 'a' :: [])) A)))) = false
  apply replaceAll_preserves_not_contains devanagariKey cyrillicKey 'C' _
    (by decide) (by decide) (by decide) (by decide) (by decide) (by decide)
  apply replaceAll_preserves_not_contains devanagariKey latinKey 'L' _
    (by decide) (by decide) (by decide) (by decide) (by decide) (by decide)
  apply replaceAll_preserves_not_contains devanagariKey iqtelifKey 'L' _
    (by decide) (by decide) (by decide) (by decide) (by decide) (by decide)
  exact replaceAll_eliminates devanagariKey 'D' _
    (by decide) (by decide) (by decide) (by decide) (by decide) A

theorem glibc_no_iqt (A : List Char) :
    containsSub iqtelifKey (glibcSubsList A) = false := by
  show containsSub iqtelifKey
    (replaceAll cyrillicKey ('C' :: ('y' :: 'r' :: 'l' :: []))
      (replaceAll latinKey ('L' :: ('a' :: 't' :: 'n' :: []))
        (replaceAll iqtelifKey ('L' :: ('a' :: 't' :: 'n' :: []))
          (replaceAll devanagariKey devaRep A)))) = false
  apply replaceAll_preserves_not_contains iqtelifKey cyrillicKey 'C' _
    (by decide) (by decide) (by decide) (by decide) (by decide) (by decide)
  apply replaceAll_preserves_not_contains iqtelifKey latinKey 'L' _
    (by decide) (by decide) (by decide) (by decide) (by decide) (by decide)
  exact replaceAll_eliminates iqtelifKey 'L' _
    (by decide) (by decide) (by decide) (by decide) (by decide) _

theorem glibc_no_cyr (A : List Char) :
    containsSub cyrillicKey (glibcSubsList A) = false := by
  show containsSub cyrillicKey
    (replaceAll cyrillicKey ('C' :: ('y' :: 'r' :: 'l' :: []))
      (replaceAll latinKey latnRep
        (replaceAll iqtelifKey latnRep
          (replaceAll devanagariKey devaRep A)))) = false
  exact replaceAll_eliminates cyrillicKey 'C' _
    (by decide) (by decide) (by decide) (by decide) (by decide) _

/-- On the image of `glibcSubsList`, a second substitution pass is
just the `latin → Latn` replacement (the other three keys no longer
occur). -/
theorem glibc_second_pass (A : List Char) :
    glibcSubsList (glibcSubsList A) =
      replaceAll latinKey latnRep (glibcSubsList A) := by
  have h1 := glibc_no_dev A
  have h2 := glibc_no_iqt A
  have h4 := glibc_no_cyr A
  show replaceAll cyrillicKey cyrlRep
    (replaceAll latinKey latnRep
      (replaceAll iqtelifKey latnRep
        (replaceAll devanagariKey devaRep (glibcSubsList A)))) = _
  rw [replaceAll_of_not_contains _ _ _ h1, replaceAll_of_not_contains _ _ _ h2]
  apply replaceAll_of_not_contains
  show containsSub cyrillicKey
    (replaceAll latinKey ('L' :: ('a' :: 't' :: 'n' :: [])) (glibcSubsList A)) = false
  exact replaceAll_preserves_not_contains cyrillicKey latinKey 'L' _
    (by decide) (by decide) (by decide) (by decide) (by decide) (by decide)
    (glibcSubsList A) h4

/-- Every `latin` occurrence in the image of `glibcSubsList` is
immediately preceded by an `r` (it can only come from the `Cyrl`
inserted by the `cyrillic` pass). -/
theorem glibc_latin_preceded (A u v : List Char)
    (h : glibcSubsList A = u ++ latinKey ++ v) : ∃ u', u = u' ++ ('r' :: []) := by
  have hlatfree : containsSub latinKey
      (replaceAll latinKey latnRep
        (replaceAll iqtelifKey latnRep (replaceAll devanagariKey devaRep A))) = false := by
    show containsSub latinKey
      (replaceAll latinKey ('L' :: ('a' :: 't' :: 'n' :: [])) _) = false
    exact replaceAll_eliminates latinKey 'L' _
      (by decide) (by decide) (by decide) (by decide) (by decide) _
  exact latin_after_cyr_preceded
    (replaceAll latinKey latnRep
      (replaceAll iqtelifKey latnRep (replaceAll devanagariKey devaRep A))).length
    _ le_rfl hlatfree u v h

/-! ## No lowercase-then-uppercase adjacency in a matched shape -/

/-- `xs` has no adjacent pair (lowercase letter, uppercase letter). -/
def noLU (xs : List Char) : Prop :=
  ∀ x a b y, xs = x ++ a :: b :: y → isLowerAZ a = true → isUpperAZ b = true → False

theorem noLU_of_no_upper (xs : List Char)
    (h : ∀ c ∈ xs, isUpperAZ c = false) : noLU xs := by
  intro x a b y hEq _ hub
  have hb : b ∈ xs := by
    rw [hEq]
    simp
  rw [h b hb] at hub
  simp at hub

theorem noLU_singleton (c : Char) : noLU (c :: []) := by
  intro x a b y hEq _ _
  have := congrArg List.length hEq
  simp at this
  omega

theorem noLU_pair (c d : Char)
    (h : isLowerAZ c = true → isUpperAZ d = true → False) : noLU (c :: d :: []) := by
  intro x a b y hEq hla hub
  cases x with
  | nil =>
    simp only [List.nil_append] at hEq
    obtain ⟨h1, hEq⟩ := List.cons.inj hEq
    obtain ⟨h2, _⟩ := List.cons.inj hEq
    subst h1
    subst h2
    exact h hla hub
  | cons e x' =>
    have := congrArg List.length hEq
    simp at this
    omega

theorem noLU_append (A B : List Char) (hA : noLU A) (hB : noLU B)
    (hlink : ∀ a b, A.getLast? = some a → B.head? = some b →
      isLowerAZ a = true → isUpperAZ b = true → False) : noLU (A ++ B) := by
  intro x a b y hEq hla hub
  rcases List.append_eq_append_iff.mp hEq with ⟨a', h1, h2⟩ | ⟨c', h1, h2⟩
  · exact hB a' a b y h2 hla hub
  · cases c' with
    | nil =>
      simp only [List.nil_append] at h2
      exact hB [] a b y (by simpa using h2.symm) hla hub
    | cons e c'' =>
      simp only [List.cons_append] at h2
      obtain ⟨he, h3⟩ := List.cons.inj h2
      cases c'' with
      | nil =>
        simp only [List.nil_append] at h3
        refine hlink e b ?_ ?_ (he ▸ hla) hub
        · rw [h1]
          exact List.getLast?_concat x
        · rw [← h3]
          rfl
      | cons f c''' =>
        simp only [List.cons_append] at h3
        obtain ⟨hf, h4⟩ := List.cons.inj h3
        refine hA x a b c''' ?_ hla hub
        rw [h1, ← he, ← hf]

/-- The consumed part of a territory match (language, optional
script, `_`, two territory letters) has no (lowercase, uppercase)
adjacency. -/
theorem shape_noLU (lang scrPart : List Char) (T1 T2 : Char)
    (hlang : (∃ a b, lang = a :: b :: [] ∧ isLowerAZ a = true ∧ isLowerAZ b = true) ∨
      (∃ a b c, lang = a :: b :: c :: [] ∧
        isLowerAZ a = true ∧ isLowerAZ b = true ∧ isLowerAZ c = true))
    (hscr : scrPart = [] ∨ ∃ c d e f, scrPart = '_' :: c :: d :: e :: f :: [] ∧
      isUpperAZ c = true ∧ isLowerAZ d = true ∧ isLowerAZ e = true ∧ isLowerAZ f = true)
    (hT1 : isUpperAZ T1 = true) (hT2 : isUpperAZ T2 = true) :
    noLU (lang ++ (scrPart ++ ('_' :: T1 :: T2 :: []))) := by
  have hTerr : noLU ('_' :: T1 :: T2 :: []) := by
    have h12 : noLU (T1 :: T2 :: []) := by
      refine noLU_pair T1 T2 ?_
      intro hl _
      rw [upper_not_lower T1 hT1] at hl
      cases hl
    have h := noLU_append ('_' :: []) (T1 :: T2 :: []) (noLU_singleton '_') h12 ?_
    · simpa using h
    · intro a b ha _ hla _
      have ha' : a = '_' :=
        Option.some.inj (ha.symm.trans (rfl : ('_' :: ([] : List Char)).getLast? = some '_'))
      rw [ha'] at hla
      exact absurd hla (by decide)
  have hB1 : noLU (scrPart ++ ('_' :: T1 :: T2 :: [])) := by
    rcases hscr with hscr0 | ⟨c, d, e, f, hscr1, hc, hd, he, hf⟩
    · rw [hscr0]
      simpa using hTerr
    · rw [hscr1]
      have hinner : noLU (c :: d :: e :: f :: []) := by
        have hlow3 : noLU (d :: e :: f :: []) := by
          apply noLU_of_no_upper
          intro ch hch
          simp only [List.mem_cons, List.not_mem_nil, or_false] at hch
          rcases hch with rfl | rfl | rfl
          · exact lower_not_upper _ hd
          · exact lower_not_upper _ he
          · exact lower_not_upper _ hf
        have h := noLU_append (c :: []) (d :: e :: f :: []) (noLU_singleton c) hlow3 ?_
        · simpa using h
        · intro a b ha _ hla _
          have ha' : a = c :=
            Option.some.inj (ha.symm.trans (rfl : (c :: ([] : List Char)).getLast? = some c))
          rw [ha', upper_not_lower c hc] at hla
          cases hla
      have hchunk : noLU ('_' :: c :: d :: e :: f :: []) := by
        have h := noLU_append ('_' :: []) (c :: d :: e :: f :: [])
          (noLU_singleton '_') hinner ?_
        · simpa using h
        · intro a b ha _ hla _
          have ha' : a = '_' :=
            Option.some.inj (ha.symm.trans (rfl : ('_' :: ([] : List Char)).getLast? = some '_'))
          rw [ha'] at hla
          exact absurd hla (by decide)
      refine noLU_append _ _ hchunk hTerr ?_
      intro a b _ hb _ hub
      have hb' : b = '_' :=
        Option.some.inj (hb.symm.trans (rfl : ('_' :: T1 :: T2 :: []).head? = some '_'))
      rw [hb'] at hub
      exact absurd hub (by decide)
  have hLang : noLU lang := by
    apply noLU_of_no_upper
    intro ch hch
    rcases hlang with ⟨a, b, hEq, ha, hb⟩ | ⟨a, b, c, hEq, ha, hb, hc⟩
    · rw [hEq] at hch
      simp only [List.mem_cons, List.not_mem_nil, or_false] at hch
      rcases hch with rfl | rfl
      · exact lower_not_upper _ ha
      · exact lower_not_upper _ hb
    · rw [hEq] at hch
      simp only [List.mem_cons, List.not_mem_nil, or_false] at hch
      rcases hch with rfl | rfl | rfl
      · exact lower_not_upper _ ha
      · exact lower_not_upper _ hb
      · exact lower_not_upper _ hc
  refine noLU_append _ _ hLang hB1 ?_
  intro a b _ hb _ hub
  have hhead : (scrPart ++ ('_' :: T1 :: T2 :: [])).head? = some '_' := by
    rcases hscr with hscr0 | ⟨c, d, e, f, hscr1, _, _, _, _⟩
    · rw [hscr0]
      rfl
    · rw [hscr1]
      rfl
  have hb' : b = '_' := Option.some.inj (hb.symm.trans hhead)
  rw [hb'] at hub
  exact absurd hub (by decide)

theorem takeScript_none_of_snd_upper (c d : Char) (rest : List Char)
    (hd : isUpperAZ d = true) : takeScript ('_' :: c :: d :: rest) = none := by
  cases rest with
  | nil => rfl
  | cons e rest' =>
    cases rest' with
    | nil => rfl
    | cons f rest'' => simp [takeScript, upper_not_lower d hd]

theorem langLookaheadOk_terr (T1 T2 : Char) (r3 : List Char)
    (hT1 : isUpperAZ T1 = true) (hT2 : isUpperAZ T2 = true) (hend : endOrAt r3 = true) :
    langLookaheadOk ('_' :: T1 :: T2 :: r3) = true := by
  simp [langLookaheadOk, hT1, hT2, hend]

theorem langLookaheadOk_script (S1 s2 s3 s4 T1 T2 : Char) (r3 : List Char)
    (hS1 : isUpperAZ S1 = true) (hs2 : isLowerAZ s2 = true)
    (hs3 : isLowerAZ s3 = true) (hs4 : isLowerAZ s4 = true)
    (hT1 : isUpperAZ T1 = true) (hT2 : isUpperAZ T2 = true) (hend : endOrAt r3 = true) :
    langLookaheadOk ('_' :: S1 :: s2 :: s3 :: s4 :: ('_' :: T1 :: T2 :: r3)) = true := by
  simp [langLookaheadOk, afterScriptOk, hS1, hs2, hs3, hs4, hT1, hT2, hend]

theorem takeTerr_terr (T1 T2 : Char) (r3 : List Char)
    (hT1 : isUpperAZ T1 = true) (hT2 : isUpperAZ T2 = true) (hend : endOrAt r3 = true) :
    takeTerr ('_' :: T1 :: T2 :: r3) = some (T1 :: T2 :: [], r3) := by
  simp [takeTerr, hT1, hT2, hend]

theorem takeScript_script (S1 s2 s3 s4 T1 T2 : Char) (r3 : List Char)
    (hS1 : isUpperAZ S1 = true) (hs2 : isLowerAZ s2 = true)
    (hs3 : isLowerAZ s3 = true) (hs4 : isLowerAZ s4 = true)
    (hT1 : isUpperAZ T1 = true) (hT2 : isUpperAZ T2 = true) (hend : endOrAt r3 = true) :
    takeScript ('_' :: S1 :: s2 :: s3 :: s4 :: ('_' :: T1 :: T2 :: r3)) =
      some (S1 :: s2 :: s3 :: s4 :: [], '_' :: T1 :: T2 :: r3) := by
  simp [takeScript, afterScriptOk, hS1, hs2, hs3, hs4, hT1, hT2, hend]

/-- A string of the matched-with-territory shape does match the CLDR
pattern (used to transfer a match of the second substitution pass back
to the first). -/
theorem matchCldr_of_shape (lang scrPart : List Char) (T1 T2 : Char) (r3 : List Char)
    (hlang : (∃ a b, lang = a :: b :: [] ∧ isLowerAZ a = true ∧ isLowerAZ b = true) ∨
      (∃ a b c, lang = a :: b :: c :: [] ∧
        isLowerAZ a = true ∧ isLowerAZ b = true ∧ isLowerAZ c = true))
    (hscr : scrPart = [] ∨ ∃ c d e f, scrPart = '_' :: c :: d :: e :: f :: [] ∧
      isUpperAZ c = true ∧ isLowerAZ d = true ∧ isLowerAZ e = true ∧ isLowerAZ f = true)
    (hT1 : isUpperAZ T1 = true) (hT2 : isUpperAZ T2 = true)
    (hend : endOrAt r3 = true) :
    matchCldr (lang ++ (scrPart ++ ('_' :: T1 :: T2 :: r3))) ≠ none := by
  rcases hscr with hscr0 | ⟨S1, s2, s3, s4, hscr1, hS1, hs2, hs3, hs4⟩
  · subst hscr0
    rcases hlang with ⟨a, b, hEq, ha, hb⟩ | ⟨a, b, c, hEq, ha, hb, hc⟩
    · subst hEq
      have hLA := langLookaheadOk_terr T1 T2 r3 hT1 hT2 hend
      have htl : takeLang (a :: b :: '_' :: T1 :: T2 :: r3) =
          some (a :: b :: [], '_' :: T1 :: T2 :: r3) := by
        simp [takeLang, ha, hb, hLA, (by decide : isLowerAZ ('_' : Char) = false)]
      have hsc : takeScript ('_' :: T1 :: T2 :: r3) = none :=
        takeScript_none_of_snd_upper T1 T2 r3 hT2
      have htt := takeTerr_terr T1 T2 r3 hT1 hT2 hend
      intro hcon
      simp only [List.nil_append, List.cons_append] at hcon
      simp [matchCldr, htl, hsc, htt] at hcon
    · subst hEq
      have hLA := langLookaheadOk_terr T1 T2 r3 hT1 hT2 hend
      have htl : takeLang (a :: b :: c :: '_' :: T1 :: T2 :: r3) =
          some (a :: b :: c :: [], '_' :: T1 :: T2 :: r3) := by
        simp [takeLang, ha, hb, hc, hLA]
      have hsc : takeScript ('_' :: T1 :: T2 :: r3) = none :=
        takeScript_none_of_snd_upper T1 T2 r3 hT2
      have htt := takeTerr_terr T1 T2 r3 hT1 hT2 hend
      intro hcon
      simp only [List.nil_append, List.cons_append] at hcon
      simp [matchCldr, htl, hsc, htt] at hcon
  · subst hscr1
    rcases hlang with ⟨a, b, hEq, ha, hb⟩ | ⟨a, b, c, hEq, ha, hb, hc⟩
    · subst hEq
      have hLA := langLookaheadOk_script S1 s2 s3 s4 T1 T2 r3 hS1 hs2 hs3 hs4 hT1 hT2 hend
      have htl : takeLang (a :: b :: '_' :: S1 :: s2 :: s3 :: s4 :: ('_' :: T1 :: T2 :: r3)) =
          some (a :: b :: [], '_' :: S1 :: s2 :: s3 :: s4 :: ('_' :: T1 :: T2 :: r3)) := by
        simp [takeLang, ha, hb, hLA, (by decide : isLowerAZ ('_' : Char) = false)]
      have hsc := takeScript_script S1 s2 s3 s4 T1 T2 r3 hS1 hs2 hs3 hs4 hT1 hT2 hend
      have htt := takeTerr_terr T1 T2 r3 hT1 hT2 hend
      intro hcon
      simp only [List.nil_append, List.cons_append] at hcon
      simp [matchCldr, htl, hsc, htt] at hcon
    · subst hEq
      have hLA := langLookaheadOk_script S1 s2 s3 s4 T1 T2 r3 hS1 hs2 hs3 hs4 hT1 hT2 hend
      have htl : takeLang
          (a :: b :: c :: '_' :: S1 :: s2 :: s3 :: s4 :: ('_' :: T1 :: T2 :: r3)) =
          some (a :: b :: c :: [], '_' :: S1 :: s2 :: s3 :: s4 :: ('_' :: T1 :: T2 :: r3)) := by
        simp [takeLang, ha, hb, hc, hLA]
      have hsc := takeScript_script S1 s2 s3 s4 T1 T2 r3 hS1 hs2 hs3 hs4 hT1 hT2 hend
      have htt := takeTerr_terr T1 T2 r3 hT1 hT2 hend
      intro hcon
      simp only [List.nil_append, List.cons_append] at hcon
      simp [matchCldr, htl, hsc, htt] at hcon

/-- If the first substitution pass over a language id does not match
the CLDR pattern, a match of the second pass cannot carry a territory
group: the only second-pass changes rewrite `Cyrlatin` to `CyrLatn`,
and a territory match around such a change would force the unchanged
string to match as well. -/
theorem second_pass_match_no_terr (A : List Char)
    (hnm : matchCldr (glibcSubsList A) = none)
    (g : List Char × Option (List Char) × Option (List Char))
    (hm : matchCldr (glibcSubsList (glibcSubsList A)) = some g) :
    g.2.2 = none := by
  by_contra hg
  obtain ⟨tr, htr⟩ := Option.ne_none_iff_exists'.mp hg
  have h2nd := glibc_second_pass A
  rw [h2nd] at hm
  have hm' : matchCldr (replaceAll latinKey latnRep (glibcSubsList A)) =
      some (g.1, g.2.1, some tr) := by
    rw [hm, ← htr]
  by_cases hlat : containsSub latinKey (glibcSubsList A) = true
  · obtain ⟨u, v, hSdecomp, hout⟩ := replaceAll_first_occ latinKey latnRep (by decide) _ hlat
    obtain ⟨u', hu'⟩ := glibc_latin_preceded A u v hSdecomp
    obtain ⟨scrPart, r3, hShape, hscrAlt, ⟨T1, T2, htr2, hT1, hT2⟩, hend, hlangAlt⟩ :=
      matchCldr_terr_shape _ g.1 g.2.1 tr hm'
    subst htr2
    have hscr' : scrPart = [] ∨ ∃ c d e f, scrPart = '_' :: c :: d :: e :: f :: [] ∧
        isUpperAZ c = true ∧ isLowerAZ d = true ∧ isLowerAZ e = true ∧ isLowerAZ f = true := by
      rcases hscrAlt with ⟨h1, _⟩ | ⟨c, d, e, f, _, h2, hc, hd, he, hf⟩
      · exact Or.inl h1
      · exact Or.inr ⟨c, d, e, f, h2, hc, hd, he, hf⟩
    have hnoLU := shape_noLU g.1 scrPart T1 T2 hlangAlt hscr' hT1 hT2
    have hP : replaceAll latinKey latnRep (glibcSubsList A) =
        (g.1 ++ (scrPart ++ ('_' :: T1 :: T2 :: []))) ++ r3 := by
      rw [hShape]
      simp
    have hcomb : (u' ++ ('r' :: 'L' :: [])) ++
        ('a' :: 't' :: 'n' :: replaceAll latinKey latnRep v) =
        (g.1 ++ (scrPart ++ ('_' :: T1 :: T2 :: []))) ++ r3 := by
      rw [← hP, hout, hu']
      simp [latnRep]
    cases r3 with
    | nil =>
      rw [List.append_nil] at hcomb
      exact hnoLU u' 'r' 'L' ('a' :: 't' :: 'n' :: replaceAll latinKey latnRep v)
        (by rw [← hcomb]; simp) (by decide) (by decide)
    | cons e γ =>
      have he' : e = '@' := by simpa [endOrAt] using hend
      subst he'
      have hupre : u <+: (g.1 ++ (scrPart ++ ('_' :: T1 :: T2 :: []))) ++ ('@' :: γ) := by
        rw [← hP, hout]
        exact ⟨latnRep ++ replaceAll latinKey latnRep v, by simp⟩
      have hppre : (g.1 ++ (scrPart ++ ('_' :: T1 :: T2 :: []))) ++ ('@' :: []) <+:
          (g.1 ++ (scrPart ++ ('_' :: T1 :: T2 :: []))) ++ ('@' :: γ) := ⟨γ, by simp⟩
      rcases List.prefix_or_prefix_of_prefix hppre hupre with hcase | hcase
      · have hPS : (g.1 ++ (scrPart ++ ('_' :: T1 :: T2 :: []))) ++ ('@' :: []) <+:
            glibcSubsList A := by
          apply hcase.trans
          exact ⟨latinKey ++ v, by rw [hSdecomp]; simp⟩
        obtain ⟨δ, hδ⟩ := hPS
        have hmS : matchCldr (glibcSubsList A) ≠ none := by
          have hform : glibcSubsList A =
              g.1 ++ (scrPart ++ ('_' :: T1 :: T2 :: ('@' :: δ))) := by
            rw [← hδ]
            simp
          rw [hform]
          exact matchCldr_of_shape g.1 scrPart T1 T2 ('@' :: δ)
            hlangAlt hscr' hT1 hT2 (by simp [endOrAt])
        exact hmS hnm
      · obtain ⟨d, hd⟩ := hcase
        cases d with
        | nil =>
          rw [List.append_nil, hu'] at hd
          exact absurd (List.append_inj' hd.symm rfl).2 (by decide)
        | cons e' d' =>
          have hOut2 : u ++ (latnRep ++ replaceAll latinKey latnRep v) =
              u ++ ((e' :: d') ++ γ) := by
            rw [← List.append_assoc, ← hout, ← List.append_assoc, hd, hP]
            simp
          have hcanc := List.append_cancel_left hOut2
          simp only [latnRep, List.cons_append] at hcanc
          obtain ⟨heL, hrest⟩ := List.cons.inj hcanc
          rcases List.eq_nil_or_concat d' with hnil | ⟨L2, z, hzc⟩
          · subst hnil
            rw [hu', ← heL] at hd
            exact absurd (List.append_inj' hd rfl).2 (by decide)
          · subst hzc
            rw [← heL] at hd
            have hd2 : (u ++ ('L' :: L2)) ++ (z :: []) =
                (g.1 ++ (scrPart ++ ('_' :: T1 :: T2 :: []))) ++ ('@' :: []) := by
              rw [← hd]
              simp [List.concat_eq_append]
            have hsplit := List.append_inj' hd2 rfl
            apply hnoLU u' 'r' 'L' L2 _ (by decide) (by decide)
            rw [← hsplit.1, hu']
            simp
  · rw [Bool.not_eq_true] at hlat
    rw [replaceAll_of_not_contains _ _ _ hlat, hnm] at hm'
    cases hm'

/-- The re-parse performed by the recursive call of `language_name`
(language output of a previous parse, no script, no territory) never
produces a territory. -/
theorem parse_of_parsed_no_terr (a b c : Option String) :
    (parse_and_split_languageId (parse_and_split_languageId a b c).1 none none).2.2 =
      none := by
  unfold parse_and_split_languageId
  cases a with
  | none =>
    simp only [Option.map_none']
    have e1 : (parse_and_split_core none (b.map glibcSubs) c).1 = none := by
      rw [parse_core_untruthy none _ _ rfl]
    rw [e1, Option.map_none', parse_core_untruthy none _ _ rfl]
  | some A =>
    simp only [Option.map_some']
    by_cases htru : pyTruthy (some (glibcSubs A)) = true
    · cases hm : matchCldr (glibcSubs A).data with
      | none =>
        have e1 : (parse_and_split_core (some (glibcSubs A)) (b.map glibcSubs) c).1 =
            some (glibcSubs A) := by
          rw [parse_core_nomatch _ _ _ htru hm]
        rw [e1, Option.map_some']
        by_cases htru2 : pyTruthy (some (glibcSubs (glibcSubs A))) = true
        · cases hm2 : matchCldr (glibcSubs (glibcSubs A)).data with
          | none => rw [parse_core_nomatch _ _ _ htru2 hm2]
          | some g =>
            have hno : g.2.2 = none := by
              apply second_pass_match_no_terr A.data
              · exact hm
              · exact hm2
            rw [parse_core_match _ _ _ g htru2 hm2, hno]
        · have htru2' : pyTruthy (some (glibcSubs (glibcSubs A))) = false := by
            simpa using htru2
          rw [parse_core_untruthy _ _ _ htru2']
      | some g =>
        have e1 : (parse_and_split_core (some (glibcSubs A)) (b.map glibcSubs) c).1 =
            some (String.mk g.1) := by
          rw [parse_core_match _ _ _ g htru hm]
        rw [e1, Option.map_some']
        obtain ⟨hne, hself⟩ := matchCldr_group_self _ g hm
        have hlen : g.1.length ≤ 3 := by
          obtain ⟨r1, htl⟩ := matchCldr_first_component _ g hm
          rcases takeLang_cases _ g.1 r1 htl with ⟨x, y, hEq, _, _⟩ | ⟨x, y, z, hEq, _, _, _⟩
          · rw [hEq]
            simp
          · rw [hEq]
            simp
        have hid : glibcSubs (String.mk g.1) = String.mk g.1 := by
          show String.mk (glibcSubsList g.1) = String.mk g.1
          congr 1
          apply glibcSubsList_id
          · by_contra hcon
            rw [Bool.not_eq_false] at hcon
            have := length_le_of_containsSub _ _ hcon
            rw [show devanagariKey.length = 10 from rfl] at this
            omega
          · by_contra hcon
            rw [Bool.not_eq_false] at hcon
            have := length_le_of_containsSub _ _ hcon
            rw [show iqtelifKey.length = 7 from rfl] at this
            omega
          · by_contra hcon
            rw [Bool.not_eq_false] at hcon
            have := length_le_of_containsSub _ _ hcon
            rw [show latinKey.length = 5 from rfl] at this
            omega
          · by_contra hcon
            rw [Bool.not_eq_false] at hcon
            have := length_le_of_containsSub _ _ hcon
            rw [show cyrillicKey.length = 8 from rfl] at this
            omega
        rw [hid, parse_core_match _ _ _ (g.1, none, none) (pyTruthy_mk g.1 hne) hself]
    · have htru' : pyTruthy (some (glibcSubs A)) = false := by
        simpa using htru
      have e1 : (parse_and_split_core (some (glibcSubs A)) (b.map glibcSubs) c).1 =
          some (glibcSubs A) := by
        rw [parse_core_untruthy _ _ _ htru']
      rw [e1, Option.map_some']
      have hempty : (glibcSubs A).data = [] := by
        have h1 : (glibcSubs A).data.isEmpty = true := by
          simpa [pyTruthy] using htru'
        simpa using h1
      have h2 : pyTruthy (some (glibcSubs (glibcSubs A))) = false := by
        show (!(glibcSubsList (glibcSubs A).data).isEmpty) = false
        rw [hempty]
        rfl
      rw [parse_core_untruthy _ _ _ h2]

/-- C10: `language_name` terminates on every input.  Its only
recursive call passes `scriptId` and `territoryId` as absent, and the
re-parse of the already-parsed language never yields a territory, so
the synthesizing branch cannot be re-entered: the recursion depth is
at most one.  Formally, any fuel bound of at least 2 computes
`language_name` (fuel 2), so the fuelled recursion is total and stable
from depth 2 on. -/
theorem language_name_depth_le_one (db : Databases) (n : Nat)
    (a b c q1 q2 q3 : Option String) :
    languageNameFuel db (n + 2) a b c q1 q2 q3 =
      language_name db a b c q1 q2 q3 := by
  unfold language_name
  rw [languageNameFuel_succ db (n + 1), show (2 : Nat) = 1 + 1 from rfl,
    languageNameFuel_succ db 1]
  simp only [languageNameBody]
  rw [show ∀ w1 w2 w3, languageNameFuel db (n + 1)
        (parse_and_split_languageId a b c).1 none none w1 w2 w3 =
      languageNameFuel db 1 (parse_and_split_languageId a b c).1 none none w1 w2 w3 from
    fun w1 w2 w3 => languageNameFuel_succ_no_terr db n 0
      (parse_and_split_languageId a b c).1 none none w1 w2 w3
      (parse_of_parsed_no_terr a b c)]
